import Mathlib

/-!
Verification of the Mini-NVR recording lifecycle and storage management engine.

This file gives a shallow embedding, in Lean 4, of the parts of the program
that the checked properties are about:

* `src/app/cleanup.py` — the storage eviction engine (candidate enumeration,
  Stage 1 and Stage 2 deletion passes);
* `src/app/utils/helpers.py` — segment filename parsing (`parse_filename`);
* `src/app/utils/recordings.py` — the recording catalog
  (`get_recordings_for_date`: local scan, cloud merge, sort, live flagging);
* `src/app/api/playback.py` — the playlist synthesizer
  (`get_segments_in_range`, `generate_m3u8_playlist`);
* `src/app/services/metadata.py` — the duration cache (`MetadataCache`).

Conventions of the embedding:

* Directory scans become explicit lists of entries passed as arguments.
* Python `str` becomes `String` and string algorithms are written over
  `List Char` (the `data` of a `String`), with character comparison by code
  point, which is exactly how Python compares strings.
* Python integers become `Nat` or `Int`.  File modification times are `Int`
  seconds.  The playlist synthesizer works with `datetime` values, which in
  Python are integer microsecond fixed-point values; they are embedded as
  `Int` microseconds (1.5 seconds = 1500000 microseconds).
* Python `list.sort`/`sorted` is a stable ascending sort by key; it is
  embedded as a stable insertion sort `sortBy`.
* Fallible code becomes `Option`.
* Filesystem writes performed by `MetadataCache.save` are embedded as an
  explicit trace of filesystem operations (`FsOp`).
-/

/-! ## Generic list and string utilities used by the embedding -/

/-- Stable insertion of one element into a list: `x` goes immediately before
the first element `y` with `le x y`.  Folding it over a list from the right
yields a stable ascending sort, the sort discipline of Python `sorted` and
`list.sort`. -/
def insertKeyed (le : α → α → Bool) (x : α) : List α → List α
  | [] => [x]
  | y :: ys => if le x y then x :: y :: ys else y :: insertKeyed le x ys

/-- Stable ascending sort by the boolean comparison `le` (Python `sorted`). -/
def sortBy (le : α → α → Bool) (l : List α) : List α :=
  l.foldr (insertKeyed le) []

/-- Lexicographic comparison of character lists by code point: the embedding
of the Python string comparison used by `sorted(key=str)`. -/
def chLe : List Char → List Char → Bool
  | [], _ => true
  | _ :: _, [] => false
  | a :: xs, b :: ys =>
    if a.toNat < b.toNat then true
    else if b.toNat < a.toNat then false
    else chLe xs ys

/-- Does `pat` occur at the head of `l`?  (Python `str.startswith`, and the
single step of substring search.) -/
def startsWithL : List Char → List Char → Bool
  | [], _ => true
  | _ :: _, [] => false
  | p :: ps, c :: cs => p == c && startsWithL ps cs

/-- Does `pat` occur anywhere inside `l`?  (Python `pat in s`.) -/
def containsSub : List Char → List Char → Bool
  | [], pat => pat.isEmpty
  | c :: cs, pat => startsWithL pat (c :: cs) || containsSub cs pat

/-- Python `s.endswith(sfx)`: the last `|sfx|` characters of `s` equal `sfx`.
This is also the semantics of a `glob` pattern `*.ext` applied to a name. -/
def hasSuffix (s sfx : String) : Bool :=
  sfx.data.length ≤ s.data.length &&
    s.data.drop (s.data.length - sfx.data.length) == sfx.data

/-- The characters of a path after the last slash (Python
`os.path.basename`). -/
def lastComponent (l : List Char) : List Char :=
  (l.reverse.takeWhile (fun c => c ≠ '/')).reverse

/-- The characters of a path before the last slash (Python
`os.path.dirname`): empty when there is no slash. -/
def dirOf (l : List Char) : List Char :=
  match l.reverse.dropWhile (fun c => c ≠ '/') with
  | [] => []
  | _ :: rest => rest.reverse

/-- Split a character list at every occurrence of `sep` (Python
`str.split(sep)` with a one-character separator). -/
def splitOnCh (sep : Char) : List Char → List (List Char)
  | [] => [[]]
  | c :: cs =>
    match splitOnCh sep cs with
    | [] => [[]]
    | g :: gs => if c == sep then [] :: g :: gs else (c :: g) :: gs

/-- Numeric value of a decimal digit character. -/
def digitVal (c : Char) : Nat := c.toNat - 48

/-- Value of a big-endian decimal digit string (Python `int(s)` on a string
of digits, leading zeros allowed). -/
def digitsVal (l : List Char) : Nat :=
  l.foldl (fun a c => 10 * a + digitVal c) 0

/-- The decimal digit character for `d < 10`. -/
def digitChar10 (d : Nat) : Char := Char.ofNat (48 + d)

/-- Little-endian decimal digits of `n`, with explicit fuel so the
definition is structural (and hence evaluates inside `decide`).  Called with
`fuel = n`, which is always enough since `n / 10 < n` for `n > 0`. -/
def natDigsAux : Nat → Nat → List Char
  | _, 0 => []
  | 0, _ + 1 => []
  | fuel + 1, n + 1 => digitChar10 ((n + 1) % 10) :: natDigsAux fuel ((n + 1) / 10)

/-- Decimal rendering of a natural number: the embedding of Python
`str(n)` / `f"{n}"` for a nonnegative integer. -/
def pyNatStr (n : Nat) : String :=
  if n = 0 then "0" else ⟨(natDigsAux n n).reverse⟩

/-- Value of a little-endian digit-character list; used to show `pyNatStr`
is injective. -/
def valOfDigs : List Char → Nat
  | [] => 0
  | c :: cs => digitVal c + 10 * valOfDigs cs

/-! ## Storage eviction engine (`src/app/cleanup.py`)

The eviction loop `main` works on the files below the recording root.  A
file is embedded as its path, byte size, creation time and modification
time; a pass receives the current list of files as an argument. -/

/-- One file under the recording root, as seen by `cleanup.py`. -/
structure FileInfo where
  path : String
  sizeBytes : Nat
  ctime : Int
  mtime : Int
deriving DecidableEq, Repr

/-- Embedding of `get_all_recordings` (`cleanup.py` lines 23-27): the files
matching glob `**/*.mp4`, then those matching `**/*.mkv`, sorted by creation
time (oldest first, Python `sorted` is stable). -/
def get_all_recordings (files : List FileInfo) : List FileInfo :=
  let mp4s := files.filter (fun f => hasSuffix f.path ".mp4")
  let mkvs := files.filter (fun f => hasSuffix f.path ".mkv")
  sortBy (fun a b => a.ctime ≤ b.ctime) (mp4s ++ mkvs)

/-- Total bytes under the recording root (`get_size_gb` reports this divided
by `2^30`; the embedding keeps bytes and compares against `limit * 2^30`,
which is the same comparison without the float division). -/
def totalBytes (files : List FileInfo) : Nat :=
  (files.map (fun f => f.sizeBytes)).sum

/-- Embedding of the Stage 1 deletion pass of `main` (`cleanup.py` lines
51-91) with `youtube_upload_enabled` false (standard mode): when usage
exceeds the soft limit and candidates exist, the pass deletes
`files[:max(1, len(files) // 2)]` of the candidate list, oldest first.  The
returned list is the list of files the pass removes. -/
def stage1Standard (limitGB : Nat) (files : List FileInfo) : List FileInfo :=
  if totalBytes files > limitGB * 2 ^ 30 then
    let fs := get_all_recordings files
    if fs.isEmpty then []
    else
      let delete_count := max 1 (fs.length / 2)
      let files_to_delete := fs.take delete_count
      let count_to_delete := files_to_delete.length
      files_to_delete.take count_to_delete
  else []

/-- Embedding of the Stage 1 deletion pass of `main` with
`youtube_upload_enabled` true (upload-aware mode): candidates whose basename
contains `"_uploaded"`, of which the oldest `min(len, 10)` are deleted. -/
def stage1UploadAware (limitGB : Nat) (files : List FileInfo) : List FileInfo :=
  if totalBytes files > limitGB * 2 ^ 30 then
    let fs := get_all_recordings files
    if fs.isEmpty then []
    else
      let files_to_delete :=
        fs.filter (fun f => containsSub (lastComponent f.path.data) "_uploaded".data)
      files_to_delete.take (min files_to_delete.length 10)
  else []

/-- Embedding of the Stage 2 critical pass of `main` (`cleanup.py` lines
96-111): when upload-awareness is on and usage still exceeds the critical
limit, the oldest 5 files are deleted indiscriminately. -/
def stage2Critical (limitGB slackGB : Nat) (files : List FileInfo) : List FileInfo :=
  if totalBytes files > (limitGB + slackGB) * 2 ^ 30 then
    (get_all_recordings files).take 5
  else []

/-- Bytes freed by deleting the given files. -/
def freedBytes (deleted : List FileInfo) : Nat :=
  (deleted.map (fun f => f.sizeBytes)).sum

/-! ## Duration cache (`src/app/services/metadata.py`) -/

/-- A filesystem operation; `MetadataCache.save` is embedded as the trace of
operations it performs. -/
inductive FsOp where
  | write (path : String) (content : String)
  | rename (src dst : String)
deriving DecidableEq, Repr

/-- Embedding of `MetadataCache.save` (`metadata.py` lines 23-28): it opens
`self.cache_file` itself for writing and dumps the serialized cache into it
directly.  The trace therefore consists of a single in-place write of the
cache file; no temporary file and no rename is involved. -/
def MetadataCache_saveOps (cacheFile : String) (serialized : String) : List FsOp :=
  [FsOp.write cacheFile serialized]

/-- Embedding of the fingerprint key `f"{path}_{size}_{mtime}"` built by
`MetadataCache.get_duration` / `set_duration` (`metadata.py` lines 55-65).
The size and the mtime are rendered in decimal and joined to the path with
underscores.  (The Python mtime is a number as well; it is embedded as a
natural number.) -/
def cacheKey (path : String) (size mtime : Nat) : String :=
  ⟨path.data ++ '_' :: (pyNatStr size).data ++ '_' :: (pyNatStr mtime).data⟩

/-- The in-memory cache dict, embedded as an association list keyed by the
fingerprint string.  Durations (Python floats holding ffprobe output) are
embedded as rationals. -/
def dictGet (c : List (String × ℚ)) (k : String) : Option ℚ :=
  match c.find? (fun e => e.1 == k) with
  | some e => some e.2
  | none => none

/-- `self.cache[key] = value` on the embedded dict: replace the binding if
the key is present, otherwise append it. -/
def dictSet (c : List (String × ℚ)) (k : String) (v : ℚ) : List (String × ℚ) :=
  if c.any (fun e => e.1 == k) then
    c.map (fun e => if e.1 == k then (k, v) else e)
  else c ++ [(k, v)]

/-- Embedding of `MetadataCache.get_duration`: look the fingerprint up in
the cache dict. -/
def get_duration (c : List (String × ℚ)) (path : String) (size mtime : Nat) : Option ℚ :=
  dictGet c (cacheKey path size mtime)

/-- Embedding of the dict update performed by `MetadataCache.set_duration`
(the subsequent `save` call is the trace `MetadataCache_saveOps`). -/
def set_duration (c : List (String × ℚ)) (path : String) (size mtime : Nat) (d : ℚ) :
    List (String × ℚ) :=
  dictSet c (cacheKey path size mtime) d

/-! ## Segment filename parsing (`src/app/utils/helpers.py`) -/

/-- The dictionary returned by `parse_filename`. -/
structure ParsedMeta where
  channel : Nat
  date : String
  time : String
  datetime : String
deriving DecidableEq, Repr

/-- The seven capture groups of the flat-name pattern
`ch(\d+)_(\d{4})(\d{2})(\d{2})_(\d{2})(\d{2})(\d{2})`. -/
structure FlatGroups where
  chDigits : List Char
  y : List Char
  mo : List Char
  d : List Char
  hh : List Char
  mi : List Char
  ss : List Char
deriving DecidableEq, Repr

/-- Attempt to match the flat-name pattern at the head of the list: literal
`ch`, one or more digits (greedy, as in the regex: the digit run must be
followed by the underscore), `_`, eight digits, `_`, six digits; anything
may follow.  `matchFlatGroups` checks the part after the channel digits,
`matchFlatAt` the literal `ch` and the digit run. -/
def matchFlatGroups (ds : List Char) : List Char → Option FlatGroups
  | u :: y1 :: y2 :: y3 :: y4 :: m1 :: m2 :: d1 :: d2 :: v ::
      h1 :: h2 :: i1 :: i2 :: s1 :: s2 :: _ =>
    if (u == '_' && v == '_' &&
        y1.isDigit && y2.isDigit && y3.isDigit && y4.isDigit &&
        m1.isDigit && m2.isDigit && d1.isDigit && d2.isDigit &&
        h1.isDigit && h2.isDigit && i1.isDigit && i2.isDigit &&
        s1.isDigit && s2.isDigit) then
      some ⟨ds, [y1, y2, y3, y4], [m1, m2], [d1, d2], [h1, h2], [i1, i2], [s1, s2]⟩
    else none
  | _ => none

def matchFlatAt (l : List Char) : Option FlatGroups :=
  match l with
  | c1 :: c2 :: t =>
    if c1 == 'c' && c2 == 'h' then
      let ds := t.takeWhile Char.isDigit
      if ds.isEmpty then none else matchFlatGroups ds (t.drop ds.length)
    else none
  | _ => none

/-- Leftmost match of the flat-name pattern (Python `re.search`): try every
start position from the left. -/
def searchFlat : List Char → Option FlatGroups
  | [] => none
  | c :: cs =>
    match matchFlatAt (c :: cs) with
    | some g => some g
    | none => searchFlat cs

/-- Does the list start with `\d{4}-\d{2}-\d{2}`?  (Python
`re.match(r'\d{4}-\d{2}-\d{2}', s)`, which anchors only at the start.) -/
def matchDateStart : List Char → Bool
  | a :: b :: c :: d :: x :: e :: f :: y :: g :: h :: _ =>
    a.isDigit && b.isDigit && c.isDigit && d.isDigit && x == '-' &&
      e.isDigit && f.isDigit && y == '-' && g.isDigit && h.isDigit
  | _ => false

/-- Remove every occurrence of `"_uploaded"` from the list, left to right
(Python `s.replace('_uploaded', '')`), with fuel for structural recursion;
called with `fuel = l.length`, which is always enough. -/
def replUploadedAux : Nat → List Char → List Char
  | _, [] => []
  | 0, l => l
  | fuel + 1, c :: cs =>
    if startsWithL "_uploaded".data (c :: cs) then
      replUploadedAux fuel ((c :: cs).drop 9)
    else c :: replUploadedAux fuel cs

/-- Python `fname.replace('_uploaded', '')`. -/
def replUploaded (l : List Char) : List Char := replUploadedAux l.length l

/-- Embedding of `parse_filename` (`helpers.py` lines 26-63).
Pattern 1 (flat names such as `ch1_20251226_153024.mp4`): leftmost regex
search on the basename; the channel is the integer value of the digit
group.  Pattern 2 (nested names such as `ch1/2025-12-26/153024.mp4`): the
parent directory must start with a date shape and split on `-` into exactly
three parts (a different number of parts raises in Python and is caught,
yielding `None`); the stem of the basename, with `_uploaded` removed, must
have exactly six characters; the channel is always `0` in this branch. -/
def parse_filename (filepath : String) : Option ParsedMeta :=
  let fname := lastComponent filepath.data
  match searchFlat fname with
  | some g =>
    some
      { channel := digitsVal g.chDigits
        date := ⟨g.y ++ '-' :: g.mo ++ '-' :: g.d⟩
        time := ⟨g.hh ++ ':' :: g.mi ++ ':' :: g.ss⟩
        datetime := ⟨g.d ++ '/' :: g.mo ++ '/' :: g.y ++ ' ' ::
          g.hh ++ ':' :: g.mi ++ ':' :: g.ss⟩ }
  | none =>
    let parent := lastComponent (dirOf filepath.data)
    if matchDateStart parent then
      let time_part := (replUploaded fname).takeWhile (fun c => c ≠ '.')
      if time_part.length == 6 then
        match splitOnCh '-' parent with
        | [y, mo, d] =>
          let hh := time_part.take 2
          let mi := (time_part.drop 2).take 2
          let ss := (time_part.drop 4).take 2
          some
            { channel := 0
              date := ⟨parent⟩
              time := ⟨hh ++ ':' :: mi ++ ':' :: ss⟩
              datetime := ⟨d ++ '/' :: mo ++ '/' :: y ++ ' ' ::
                hh ++ ':' :: mi ++ ':' :: ss⟩ }
        | _ => none
      else none
    else none

/-! ## Recording catalog (`src/app/utils/recordings.py`)

`get_recordings_for_date` scans the recording root for flat files of the
requested channel and date and the nested `ch{N}/{date}` directory, merges
ledger (cloud) entries, sorts, and flags at most one entry live.  Directory
scans become explicit entry lists; the duration lookup (cache plus ffprobe
subprocess) and the human-readable size formatting of the result rows are
not part of the embedded result, which keeps the fields the checked
properties are about. -/

/-- A directory entry delivered by `os.scandir`: name, full path, file
flag, and stat data. -/
structure DirEntry where
  name : String
  path : String
  isFile : Bool
  size : Nat
  mtime : Int
deriving DecidableEq, Repr

/-- One row of the in-memory `recordings` list built by
`get_recordings_for_date` (the `meta` sub-dict is inlined; its `channel`
entry is never read downstream and is dropped). -/
structure CatRec where
  fullPath : Option String
  relPath : String
  metaDate : String
  metaTime : String
  metaDatetime : String
  size : Nat
  mtime : Int
  youtubeUrl : Option String
deriving DecidableEq, Repr

/-- A ledger row for the requested date and channel, as produced by
`_get_youtube_entries_for_date`: start time and cloud URL. -/
structure CloudEntry where
  time : String
  url : String
deriving DecidableEq, Repr

/-- One row of the result list of `get_recordings_for_date` (duration and
size display omitted, see the section comment). -/
structure OutRec where
  name : String
  startTime : String
  datetime : String
  live : Bool
  youtubeUrl : Option String
deriving DecidableEq, Repr

/-- Default row, used only as the out-of-range value of `List.getD`; its
`mtime` of `0` can never lie in the live window. -/
def catRecDefault : CatRec :=
  { fullPath := none, relPath := "", metaDate := "", metaTime := "",
    metaDatetime := "", size := 0, mtime := 0, youtubeUrl := none }

/-- `os.path.relpath(p, root)` for paths below `root`, which is the only
way the catalog uses it. -/
def relPathOf (root p : String) : String :=
  if startsWithL (root.data ++ ['/']) p.data then ⟨p.data.drop (root.data.length + 1)⟩
  else p

/-- The candidate entries of the scan (`recordings.py` lines 205-221): flat
root entries whose name starts with `ch{ch}_{date-without-dashes}`, then
every file of the nested `ch{ch}/{date}` directory. -/
def localCandidates (ch : Nat) (date : String) (rootEntries nestedEntries : List DirEntry) :
    List DirEntry :=
  let target_date_flat : List Char := date.data.filter (fun c => c ≠ '-')
  let pre : List Char := 'c' :: 'h' :: (pyNatStr ch).data ++ '_' :: target_date_flat
  rootEntries.filter (fun e => e.isFile && startsWithL pre e.name.data)
    ++ nestedEntries.filter (fun e => e.isFile)

/-- `max(candidates, key=mtime)` (`recordings.py` lines 224-229): the first
entry of maximal mtime, `none` on an empty list. -/
def latestByMtime : List DirEntry → Option DirEntry
  | [] => none
  | e :: es => some (es.foldl (fun acc x => if x.mtime > acc.mtime then x else acc) e)

/-- Build the row for one local candidate (`recordings.py` lines 231-263):
only `.ts`, `.mp4` and `.mkv` files are kept; an `.mkv` file is kept only
when it is the latest candidate; the name must parse and its date must
equal the requested date. -/
def buildLocalRec (recordDir date : String) (latest : Option DirEntry) (e : DirEntry) :
    Option CatRec :=
  let is_ts := hasSuffix e.name ".ts"
  let is_mp4 := hasSuffix e.name ".mp4"
  let is_mkv := hasSuffix e.name ".mkv"
  if !(is_ts || is_mp4 || is_mkv) then none
  else if is_mkv && !(latest == some e) then none
  else
    match parse_filename e.path with
    | none => none
    | some meta =>
      if meta.date == date then
        some
          { fullPath := some e.path, relPath := relPathOf recordDir e.path,
            metaDate := meta.date, metaTime := meta.time,
            metaDatetime := meta.datetime, size := e.size, mtime := e.mtime,
            youtubeUrl := none }
      else none

/-- All local rows, in candidate order. -/
def buildLocalRecs (recordDir date : String) (cands : List DirEntry) (latest : Option DirEntry) :
    List CatRec :=
  cands.filterMap (buildLocalRec recordDir date latest)

/-- Index of the last local row with the given start time: the binding held
by `local_recs_map` after the build loop (later insertions into the Python
dict overwrite earlier ones). -/
def lastTimeIdx (locals : List CatRec) (t : String) : Option Nat :=
  match locals with
  | [] => none
  | r :: rs =>
    match lastTimeIdx rs t with
    | some j => some (j + 1)
    | none => if r.metaTime == t then some 0 else none

/-- Attach a cloud URL to the row at the given index (the in-place mutation
of the shared dict object in Python). -/
def setUrlAt : List CatRec → Nat → String → List CatRec
  | [], _, _ => []
  | r :: rs, 0, u => { r with youtubeUrl := some u } :: rs
  | r :: rs, n + 1, u => r :: setUrlAt rs n u

/-- The cloud-only pseudo-row (`recordings.py` lines 280-293): no local
path, dummy relative path, zero size and mtime, and a `datetime` built as
`f"{date} {time_key}"`. -/
def phantomRec (date : String) (e : CloudEntry) : CatRec :=
  { fullPath := none
    relPath := ⟨"cloud/".data ++ date.data ++ '/' :: e.time.data⟩
    metaDate := date, metaTime := e.time
    metaDatetime := ⟨date.data ++ ' ' :: e.time.data⟩
    size := 0, mtime := 0, youtubeUrl := some e.url }

/-- Merge the cloud entries into the local rows (`recordings.py` lines
271-293): an entry whose time matches a local row attaches its URL to the
row the dict holds for that time; an entry with no local match appends a
cloud-only pseudo-row after all local rows. -/
def mergeCloud (date : String) (locals : List CatRec) (cloud : List CloudEntry) :
    List CatRec :=
  let st := cloud.foldl
    (fun (st : List CatRec × List CatRec) e =>
      match lastTimeIdx locals e.time with
      | some i => (setUrlAt st.1 i e.url, st.2)
      | none => (st.1, st.2 ++ [phantomRec date e]))
    (locals, [])
  st.1 ++ st.2

/-- The sort of step 4 (`recordings.py` line 296):
`recordings.sort(key=lambda x: x['meta']['datetime'])` — a stable sort by
the raw `datetime` string. -/
def sortByDatetime (recs : List CatRec) : List CatRec :=
  sortBy (fun a b => chLe a.metaDatetime.data b.metaDatetime.data) recs

/-- The live-window test of step 5 (`recordings.py` line 304):
`rec['mtime'] > 0 and (now - rec['mtime']) < 15`. -/
def liveWindow (now : Int) (r : CatRec) : Bool :=
  r.mtime > 0 && now - r.mtime < 15

/-- The `live_index` loop (`recordings.py` lines 302-305): the index of the
last row satisfying the live-window test, tracked as an accumulator
(`none` embeds the initial `-1`). -/
def liveIndexAux (now : Int) : List CatRec → Nat → Option Nat → Option Nat
  | [], _, acc => acc
  | r :: rs, i, acc =>
    liveIndexAux now rs (i + 1) (if liveWindow now r then some i else acc)

/-- Index flagged live for a sorted row list. -/
def liveIndexOf (now : Int) (recs : List CatRec) : Option Nat :=
  liveIndexAux now recs 0 none

/-- Greatest index whose row satisfies the live-window test; proved equal
to the `live_index` loop and easier to reason about. -/
def lastHit (now : Int) : List CatRec → Option Nat
  | [] => none
  | r :: rs =>
    match lastHit now rs with
    | some j => some (j + 1)
    | none => if liveWindow now r then some 0 else none

/-- The result loop of step 5 (`recordings.py` lines 307-335): each row is
emitted with `live` true exactly at the flagged index. -/
def markLiveAux (li : Option Nat) : List CatRec → Nat → List OutRec
  | [], _ => []
  | r :: rs, i =>
    { name := r.relPath, startTime := r.metaTime, datetime := r.metaDatetime,
      live := li == some i, youtubeUrl := r.youtubeUrl } :: markLiveAux li rs (i + 1)

/-- Steps 4 and 5 packaged: flag the live row of a sorted list. -/
def markLive (recs : List CatRec) (now : Int) : List OutRec :=
  markLiveAux (liveIndexOf now recs) recs 0

/-- The merged and sorted row list of a catalog query, before live
flagging. -/
def catalogSorted (recordDir : String) (ch : Nat) (date : String)
    (rootEntries nestedEntries : List DirEntry) (cloud : List CloudEntry) : List CatRec :=
  let cands := localCandidates ch date rootEntries nestedEntries
  let latest := latestByMtime cands
  let locals := buildLocalRecs recordDir date cands latest
  sortByDatetime (mergeCloud date locals cloud)

/-- Embedding of `get_recordings_for_date` (`recordings.py` lines 195-337):
scan, merge, sort, flag live. -/
def get_recordings_for_date (recordDir : String) (ch : Nat) (date : String)
    (rootEntries nestedEntries : List DirEntry) (cloud : List CloudEntry) (now : Int) :
    List OutRec :=
  markLive (catalogSorted recordDir ch date rootEntries nestedEntries cloud) now

/-! ## Playlist synthesizer (`src/app/api/playback.py`) -/

/-- A time of day, already split into hour, minute and second fields (the
embedding of a parsed `HH:MM:SS` query value). -/
structure TOD where
  h : Nat
  m : Nat
  s : Nat
deriving DecidableEq, Repr

/-- Seconds after midnight. -/
def todSec (t : TOD) : Nat := t.h * 3600 + t.m * 60 + t.s

/-- The bounds accepted by `datetime.replace` — an out-of-range field raises
`ValueError`, which `get_segments_in_range` catches, leaving the bound
unset. -/
def todValid (t : TOD) : Bool := t.h < 24 && t.m < 60 && t.s < 60

/-- A segment dict produced by `get_segments_in_range`: segment file name,
display time, start in seconds after midnight of the requested date, and
the configured duration in seconds. -/
structure HlsSeg where
  filename : String
  timeStr : String
  startSec : Nat
  duration : Nat
deriving DecidableEq, Repr

/-- Parse of the segment-name regex `^(\d{2})(\d{2})(\d{2})\.ts$` (anchored
at both ends, so the name is exactly six digits and `.ts`). -/
def parseSegName (name : String) : Option TOD :=
  match name.data with
  | [a, b, c, d, e, f, '.', 't', 's'] =>
    if a.isDigit && b.isDigit && c.isDigit && d.isDigit && e.isDigit && f.isDigit then
      some ⟨10 * digitVal a + digitVal b, 10 * digitVal c + digitVal d,
        10 * digitVal e + digitVal f⟩
    else none
  | _ => none

/-- Python `f"{h:02d}"` for `h ≤ 99`. -/
def pad2 (n : Nat) : String :=
  if n < 10 then ⟨'0' :: (pyNatStr n).data⟩ else pyNatStr n

/-- Embedding of `get_segments_in_range` (`playback.py` lines 35-112) for an
existing date directory given as an entry list.  A bound that fails
validation is dropped (the `except` around `base_date.replace`).  A `.ts`
entry whose name matches the segment pattern is kept unless its computed
end lies before the start bound or its start lies after the end bound;
the kept segments are sorted by start time.  (For names parsing to an
out-of-range hour Python would raise inside the scan; such names do not
occur, and the embedding keeps the computed seconds.)  The body of the
scan loop is the per-entry filter `segEntryFilter`. -/
def segEntryFilter (segmentDuration : Nat) (start_dt end_dt : Option Nat) (e : DirEntry) :
    Option HlsSeg :=
  if !(e.isFile && hasSuffix e.name ".ts") then none
  else
    match parseSegName e.name with
    | none => none
    | some t =>
      let segment_dt := todSec t
      let segment_end_dt := segment_dt + segmentDuration
      if (match start_dt with | some sd => decide (segment_end_dt < sd) | none => false) then
        none
      else if (match end_dt with | some ed => decide (segment_dt > ed) | none => false) then
        none
      else
        some
          { filename := e.name
            timeStr := ⟨(pad2 t.h).data ++ ':' :: (pad2 t.m).data ++ ':' :: (pad2 t.s).data⟩
            startSec := segment_dt
            duration := segmentDuration }

/-- Embedding of the whole of `get_segments_in_range`: validate the bounds,
filter each directory entry with `segEntryFilter`, sort by start time. -/
def get_segments_in_range (entries : List DirEntry) (segmentDuration : Nat)
    (startB endB : Option TOD) : List HlsSeg :=
  let start_dt := startB.bind (fun t => if todValid t then some (todSec t) else none)
  let end_dt := endB.bind (fun t => if todValid t then some (todSec t) else none)
  sortBy (fun a b => a.startSec ≤ b.startSec)
    (entries.filterMap (segEntryFilter segmentDuration start_dt end_dt))

/-- A segment handed to `generate_m3u8_playlist`: absolute start and
duration in integer microseconds (Python datetimes are integer-microsecond
fixed-point values; 1.5 seconds is 1500000 microseconds), plus the segment
file name. -/
structure PSeg where
  startUs : Int
  durUs : Int
  filename : String
deriving DecidableEq, Repr

/-- One line of the generated playlist document, structured. -/
inductive M3U8Line where
  | extm3u
  | version (n : Nat)
  | targetduration (n : Int)
  | mediaSequence (n : Nat)
  | playlistType (s : String)
  | discontinuity
  | programDateTime (startUs : Int)
  | extinf (durUs : Int)
  | uri (s : String)
  | endlist
deriving DecidableEq, Repr

/-- `max(s["duration"] for s in segments)` over a nonempty list. -/
def maxDurUs : List PSeg → Int
  | [] => 0
  | s :: rest => rest.foldl (fun acc x => max acc x.durUs) s.durUs

/-- The header lines for a nonempty playlist (`playback.py` lines 131-140);
`int(max_duration) + 1` truncates the seconds value of the maximal
duration, embedded as integer division of nonnegative microseconds. -/
def playlistHeader (maxdUs : Int) : List M3U8Line :=
  [M3U8Line.extm3u, M3U8Line.version 3,
   M3U8Line.targetduration (maxdUs / 1000000 + 1),
   M3U8Line.mediaSequence 0, M3U8Line.playlistType "VOD"]

/-- The gap threshold `GAP_THRESHOLD = 1.5` seconds, in microseconds. -/
def gapThresholdUs : Int := 1500000

/-- The per-segment loop of `generate_m3u8_playlist` (`playback.py` lines
142-160): the accumulator is `last_end_time` (`none` embeds the initial
`None`); a discontinuity line is emitted when the gap from the previous
end to the current start exceeds the threshold, then the three segment
lines; the accumulator becomes the segment end. -/
def playlistBody (last : Option Int) : List PSeg → List M3U8Line
  | [] => [M3U8Line.endlist]
  | s :: rest =>
    (match last with
     | none => []
     | some le => if s.startUs - le > gapThresholdUs then [M3U8Line.discontinuity] else [])
    ++ M3U8Line.programDateTime s.startUs :: M3U8Line.extinf s.durUs ::
      M3U8Line.uri s.filename :: playlistBody (some (s.startUs + s.durUs)) rest

/-- Embedding of `generate_m3u8_playlist` (`playback.py` lines 115-164); an
empty segment list yields the fixed minimal playlist. -/
def generate_m3u8_playlist (segs : List PSeg) : List M3U8Line :=
  if segs.isEmpty then
    [M3U8Line.extm3u, M3U8Line.version 3, M3U8Line.targetduration 0, M3U8Line.endlist]
  else playlistHeader (maxDurUs segs) ++ playlistBody none segs

/-- The playlist body as the specification describes it: each segment is
paired with its predecessor, and a discontinuity marker appears before a
segment exactly when it has a predecessor and the gap between the
predecessor computed end (start plus duration) and the segment start
exceeds the threshold; no marker ever precedes the first segment. -/
def specBlocks : Option PSeg → List PSeg → List M3U8Line
  | _, [] => []
  | p, s :: rest =>
    (match p with
     | none => []
     | some q =>
       if s.startUs - (q.startUs + q.durUs) > gapThresholdUs then [M3U8Line.discontinuity]
       else [])
    ++ M3U8Line.programDateTime s.startUs :: M3U8Line.extinf s.durUs ::
      M3U8Line.uri s.filename :: specBlocks (some s) rest

/-! # Lemmas -/

/-! ## Generic lemmas about the sorting and string utilities -/

theorem mem_insertKeyed (le : α → α → Bool) (x y : α) (l : List α) :
    y ∈ insertKeyed le x l ↔ y = x ∨ y ∈ l := by
  induction l with
  | nil => simp [insertKeyed]
  | cons z zs ih =>
    by_cases h : le x z
    · simp [insertKeyed, h]
    · simp only [insertKeyed, h, Bool.false_eq_true, if_false, List.mem_cons, ih]
      tauto

theorem mem_sortBy (le : α → α → Bool) (y : α) (l : List α) :
    y ∈ sortBy le l ↔ y ∈ l := by
  induction l with
  | nil => simp [sortBy]
  | cons z zs ih =>
    simp only [sortBy, List.foldr_cons, List.mem_cons]
    rw [mem_insertKeyed]
    simp only [sortBy] at ih
    rw [ih]

theorem length_insertKeyed (le : α → α → Bool) (x : α) (l : List α) :
    (insertKeyed le x l).length = l.length + 1 := by
  induction l with
  | nil => simp [insertKeyed]
  | cons z zs ih =>
    by_cases h : le x z
    · simp [insertKeyed, h]
    · simp [insertKeyed, h, ih]

theorem length_sortBy (le : α → α → Bool) (l : List α) :
    (sortBy le l).length = l.length := by
  induction l with
  | nil => rfl
  | cons z zs ih =>
    simp only [sortBy, List.foldr_cons] at *
    rw [length_insertKeyed, ih, List.length_cons]

theorem hasSuffix_drop {s sfx : String} (h : hasSuffix s sfx = true) :
    sfx.data.length ≤ s.data.length ∧
      s.data.drop (s.data.length - sfx.data.length) = sfx.data := by
  unfold hasSuffix at h
  simp only [Bool.and_eq_true, decide_eq_true_eq, beq_iff_eq] at h
  exact h

/-- A path ending in `.mp4` does not end in `.ts`. -/
theorem not_ts_of_mp4 {s : String} (h : hasSuffix s ".mp4" = true) :
    hasSuffix s ".ts" = false := by
  obtain ⟨hlen, hdrop⟩ := hasSuffix_drop h
  have e4 : (".mp4" : String).data.length = 4 := rfl
  rw [e4] at hlen hdrop
  have hlen3 : 3 ≤ s.data.length := by omega
  have hstep := List.drop_drop 1 (s.data.length - 4) s.data
  rw [hdrop] at hstep
  have hd : s.data.drop (s.data.length - 3) = ['m', 'p', '4'] := by
    have harith : s.data.length - 4 + 1 = s.data.length - 3 := by omega
    rw [harith] at hstep
    exact hstep.symm
  show (decide (3 ≤ s.data.length) && (s.data.drop (s.data.length - 3) == ['.', 't', 's']))
      = false
  rw [hd]
  simp

/-- A path ending in `.mkv` does not end in `.ts`. -/
theorem not_ts_of_mkv {s : String} (h : hasSuffix s ".mkv" = true) :
    hasSuffix s ".ts" = false := by
  obtain ⟨hlen, hdrop⟩ := hasSuffix_drop h
  have e4 : (".mkv" : String).data.length = 4 := rfl
  rw [e4] at hlen hdrop
  have hlen3 : 3 ≤ s.data.length := by omega
  have hstep := List.drop_drop 1 (s.data.length - 4) s.data
  rw [hdrop] at hstep
  have hd : s.data.drop (s.data.length - 3) = ['m', 'k', 'v'] := by
    have harith : s.data.length - 4 + 1 = s.data.length - 3 := by omega
    rw [harith] at hstep
    exact hstep.symm
  show (decide (3 ≤ s.data.length) && (s.data.drop (s.data.length - 3) == ['.', 't', 's']))
      = false
  rw [hd]
  simp

/-! ## Lemmas about the eviction engine -/

/-- A file enumerated by `get_all_recordings` is one of the walked files
and carries an `.mp4` or `.mkv` suffix. -/
theorem mem_get_all_recordings {files : List FileInfo} {f : FileInfo} :
    f ∈ get_all_recordings files ↔
      f ∈ files ∧ (hasSuffix f.path ".mp4" = true ∨ hasSuffix f.path ".mkv" = true) := by
  unfold get_all_recordings
  rw [mem_sortBy, List.mem_append, List.mem_filter, List.mem_filter]
  tauto

/-- In standard mode, a Stage 1 pass over an over-limit store with
candidates present removes exactly the oldest `max 1 (n / 2)` candidates. -/
theorem stage1Standard_eq {L : Nat} {files : List FileInfo}
    (hover : totalBytes files > L * 2 ^ 30) (hne : get_all_recordings files ≠ []) :
    stage1Standard L files =
      (get_all_recordings files).take (max 1 ((get_all_recordings files).length / 2)) := by
  unfold stage1Standard
  rw [if_pos hover]
  have hfalse : (get_all_recordings files).isEmpty = false := by
    cases h : get_all_recordings files with
    | nil => exact absurd h hne
    | cons a l => rfl
  simp only [hfalse, Bool.false_eq_true, if_false, List.take_length]

theorem stage1Standard_subset {L : Nat} {files : List FileInfo} {f : FileInfo}
    (h : f ∈ stage1Standard L files) : f ∈ get_all_recordings files := by
  unfold stage1Standard at h
  by_cases hover : totalBytes files > L * 2 ^ 30
  · rw [if_pos hover] at h
    by_cases he : (get_all_recordings files).isEmpty
    · simp [he] at h
    · simp only [he, Bool.false_eq_true, if_false] at h
      exact List.take_subset _ _ (List.take_subset _ _ h)
  · rw [if_neg hover] at h
    exact absurd h (List.not_mem_nil f)

theorem stage1UploadAware_subset {L : Nat} {files : List FileInfo} {f : FileInfo}
    (h : f ∈ stage1UploadAware L files) : f ∈ get_all_recordings files := by
  unfold stage1UploadAware at h
  by_cases hover : totalBytes files > L * 2 ^ 30
  · rw [if_pos hover] at h
    by_cases he : (get_all_recordings files).isEmpty
    · simp [he] at h
    · simp only [he, Bool.false_eq_true, if_false] at h
      exact List.mem_of_mem_filter (List.take_subset _ _ h)
  · rw [if_neg hover] at h
    exact absurd h (List.not_mem_nil f)

theorem stage2Critical_subset {L S : Nat} {files : List FileInfo} {f : FileInfo}
    (h : f ∈ stage2Critical L S files) : f ∈ get_all_recordings files := by
  unfold stage2Critical at h
  by_cases hover : totalBytes files > (L + S) * 2 ^ 30
  · rw [if_pos hover] at h
    exact List.take_subset _ _ h
  · rw [if_neg hover] at h
    exact absurd h (List.not_mem_nil f)

/-! ## Lemmas about decimal rendering and the cache fingerprint -/

theorem digitChar10_toNat {d : Nat} (hd : d < 10) : (digitChar10 d).toNat = 48 + d := by
  interval_cases d <;> decide

theorem valOfDigs_natDigsAux : ∀ fuel n, n ≤ fuel → valOfDigs (natDigsAux fuel n) = n := by
  intro fuel
  induction fuel with
  | zero =>
    intro n h
    interval_cases n
    rfl
  | succ fuel ih =>
    intro n h
    cases n with
    | zero => rfl
    | succ m =>
      have hdivlt : (m + 1) / 10 < m + 1 := Nat.div_lt_self (Nat.succ_pos m) (by norm_num)
      have hdivle : (m + 1) / 10 ≤ fuel := by omega
      have hmod : (m + 1) % 10 < 10 := Nat.mod_lt _ (by norm_num)
      show digitVal (digitChar10 ((m + 1) % 10)) +
          10 * valOfDigs (natDigsAux fuel ((m + 1) / 10)) = m + 1
      rw [ih _ hdivle]
      unfold digitVal
      rw [digitChar10_toNat hmod]
      omega

theorem pyNatStr_val (n : Nat) : valOfDigs (pyNatStr n).data.reverse = n := by
  unfold pyNatStr
  by_cases h : n = 0
  · subst h
    decide
  · rw [if_neg h]
    show valOfDigs (natDigsAux n n).reverse.reverse = n
    rw [List.reverse_reverse]
    exact valOfDigs_natDigsAux n n le_rfl

theorem pyNatStr_inj {a b : Nat} (h : pyNatStr a = pyNatStr b) : a = b := by
  have hv := congrArg (fun s => valOfDigs s.data.reverse) h
  simp only [pyNatStr_val] at hv
  exact hv

theorem natDigsAux_digits :
    ∀ fuel n c, c ∈ natDigsAux fuel n → ∃ d, d < 10 ∧ c = digitChar10 d := by
  intro fuel
  induction fuel with
  | zero =>
    intro n c hc
    cases n <;> simp [natDigsAux] at hc
  | succ fuel ih =>
    intro n c hc
    cases n with
    | zero => simp [natDigsAux] at hc
    | succ m =>
      simp only [natDigsAux, List.mem_cons] at hc
      rcases hc with h | h
      · exact ⟨(m + 1) % 10, Nat.mod_lt _ (by norm_num), h⟩
      · exact ih _ _ h

theorem pyNatStr_no_underscore {n : Nat} {c : Char} (hc : c ∈ (pyNatStr n).data) :
    c ≠ '_' := by
  unfold pyNatStr at hc
  by_cases h : n = 0
  · subst h
    simp only [if_pos rfl] at hc
    have : c ∈ ['0'] := hc
    simp only [List.mem_singleton] at this
    subst this
    decide
  · rw [if_neg h] at hc
    have hc' : c ∈ natDigsAux n n := by
      have he : (⟨(natDigsAux n n).reverse⟩ : String).data = (natDigsAux n n).reverse := rfl
      rw [he, List.mem_reverse] at hc
      exact hc
    obtain ⟨d, hd, rfl⟩ := natDigsAux_digits n n c hc'
    intro hEq
    have h95 : (digitChar10 d).toNat = 95 := by rw [hEq]; rfl
    rw [digitChar10_toNat hd] at h95
    omega

theorem sep_split_inj {l1 l2 m1 m2 : List Char}
    (h1 : '_' ∉ l1) (h2 : '_' ∉ m1)
    (h : l1 ++ '_' :: l2 = m1 ++ '_' :: m2) : l1 = m1 ∧ l2 = m2 := by
  induction l1 generalizing m1 with
  | nil =>
    cases m1 with
    | nil => simpa using h
    | cons b u =>
      simp only [List.nil_append, List.cons_append, List.cons.injEq] at h
      exact absurd (h.1 ▸ List.mem_cons_self b u) h2
  | cons a t ih =>
    cases m1 with
    | nil =>
      simp only [List.cons_append, List.nil_append, List.cons.injEq] at h
      exact absurd (h.1 ▸ List.mem_cons_self a t) h1
    | cons b u =>
      simp only [List.cons_append, List.cons.injEq] at h
      obtain ⟨hab, ht⟩ := h
      have hrec := ih (fun hm => h1 (List.mem_cons_of_mem _ hm))
        (fun hm => h2 (List.mem_cons_of_mem _ hm)) ht
      exact ⟨by rw [hab, hrec.1], hrec.2⟩

/-- Distinct sizes or mtimes always produce distinct fingerprint keys for
the same path: the decimal renderings contain no underscore, so the two
rightmost underscores of the key split it unambiguously. -/
theorem cacheKey_inj {p : String} {s m t u : Nat}
    (h : cacheKey p s m = cacheKey p t u) : s = t ∧ m = u := by
  unfold cacheKey at h
  injection h with hl
  rw [List.append_assoc, List.append_assoc, List.cons_append, List.cons_append] at hl
  have hcons := List.append_cancel_left hl
  have htail : (pyNatStr s).data ++ '_' :: (pyNatStr m).data
      = (pyNatStr t).data ++ '_' :: (pyNatStr u).data := by
    injection hcons
  have hsplit := sep_split_inj (fun hm => pyNatStr_no_underscore hm rfl)
    (fun hm => pyNatStr_no_underscore hm rfl) htail
  constructor
  · apply pyNatStr_inj
    apply String.ext
    exact hsplit.1
  · apply pyNatStr_inj
    apply String.ext
    exact hsplit.2

theorem dictGet_set_same (k : String) (v : ℚ) : dictGet (dictSet [] k v) k = some v := by
  simp [dictGet, dictSet, List.find?]

theorem dictGet_set_other {k k' : String} (v : ℚ) (h : k' ≠ k) :
    dictGet (dictSet [] k v) k' = none := by
  have hkk : (k == k') = false := by
    rw [beq_eq_false_iff_ne]
    exact Ne.symm h
  simp [dictGet, dictSet, List.find?, hkk]

/-! ## Lemmas about the catalog live flag -/

theorem liveWindow_default (now : Int) : liveWindow now catRecDefault = false := by
  simp [liveWindow, catRecDefault]

theorem liveIndexAux_eq (now : Int) :
    ∀ (l : List CatRec) (i : Nat) (acc : Option Nat),
      liveIndexAux now l i acc =
        match lastHit now l with
        | some j => some (i + j)
        | none => acc := by
  intro l
  induction l with
  | nil => intro i acc; rfl
  | cons r rs ih =>
    intro i acc
    show liveIndexAux now rs (i + 1) (if liveWindow now r then some i else acc) = _
    rw [ih]
    cases hrs : lastHit now rs with
    | some j =>
      simp only [lastHit, hrs]
      have : i + 1 + j = i + (j + 1) := by omega
      rw [this]
    | none =>
      simp only [lastHit, hrs]
      by_cases hw : liveWindow now r
      · simp [hw]
      · simp [hw]

theorem liveIndexOf_eq_lastHit (now : Int) (l : List CatRec) :
    liveIndexOf now l = lastHit now l := by
  unfold liveIndexOf
  rw [liveIndexAux_eq]
  cases lastHit now l with
  | some j => simp
  | none => rfl

theorem lastHit_none (now : Int) :
    ∀ (l : List CatRec), lastHit now l = none →
      ∀ k, liveWindow now (l.getD k catRecDefault) = false := by
  intro l
  induction l with
  | nil =>
    intro _ k
    simpa [List.getD] using liveWindow_default now
  | cons r rs ih =>
    intro h k
    unfold lastHit at h
    cases hrs : lastHit now rs with
    | some j => rw [hrs] at h; cases h
    | none =>
      rw [hrs] at h
      by_cases hw : liveWindow now r
      · rw [if_pos hw] at h; cases h
      · cases k with
        | zero => simpa [List.getD_cons_zero] using hw
        | succ k => simpa [List.getD_cons_succ] using ih hrs k

theorem lastHit_spec (now : Int) :
    ∀ (l : List CatRec) (j : Nat), lastHit now l = some j →
      j < l.length ∧ liveWindow now (l.getD j catRecDefault) = true ∧
        ∀ k, j < k → liveWindow now (l.getD k catRecDefault) = false := by
  intro l
  induction l with
  | nil => intro j h; cases h
  | cons r rs ih =>
    intro j h
    unfold lastHit at h
    cases hrs : lastHit now rs with
    | some j' =>
      rw [hrs] at h
      injection h with hj
      obtain ⟨hlt, hw, hafter⟩ := ih j' hrs
      subst hj
      refine ⟨by simp only [List.length_cons]; omega, ?_, ?_⟩
      · simpa [List.getD_cons_succ] using hw
      · intro k hk
        cases k with
        | zero => omega
        | succ k =>
          rw [List.getD_cons_succ]
          exact hafter k (by omega)
    | none =>
      rw [hrs] at h
      by_cases hw : liveWindow now r
      · rw [if_pos hw] at h
        injection h with hj
        subst hj
        refine ⟨by simp, by simpa [List.getD_cons_zero] using hw, ?_⟩
        intro k hk
        cases k with
        | zero => omega
        | succ k =>
          rw [List.getD_cons_succ]
          exact lastHit_none now rs hrs k
      · rw [if_neg hw] at h; cases h

theorem markLiveAux_length (li : Option Nat) :
    ∀ (l : List CatRec) (i : Nat), (markLiveAux li l i).length = l.length := by
  intro l
  induction l with
  | nil => intro i; rfl
  | cons r rs ih =>
    intro i
    show (_ :: markLiveAux li rs (i + 1)).length = _
    simp only [List.length_cons, ih]

theorem markLiveAux_countP_none :
    ∀ (l : List CatRec) (i : Nat),
      (markLiveAux none l i).countP (fun r => r.live) = 0 := by
  intro l
  induction l with
  | nil => intro i; rfl
  | cons r rs ih =>
    intro i
    show List.countP (fun r => r.live) (_ :: markLiveAux none rs (i + 1)) = 0
    rw [List.countP_cons]
    simp [ih]

theorem markLiveAux_countP_lt {j : Nat} :
    ∀ (l : List CatRec) (i : Nat), j < i →
      (markLiveAux (some j) l i).countP (fun r => r.live) = 0 := by
  intro l
  induction l with
  | nil => intro i _; rfl
  | cons r rs ih =>
    intro i hji
    show List.countP (fun r => r.live) (_ :: markLiveAux (some j) rs (i + 1)) = 0
    rw [List.countP_cons]
    have hne : (some j == some i) = false := by
      simp only [beq_eq_false_iff_ne, ne_eq, Option.some.injEq]
      omega
    have hrec := ih (i + 1) (by omega)
    simp [hne, hrec]

theorem markLiveAux_countP_le (li : Option Nat) :
    ∀ (l : List CatRec) (i : Nat),
      (markLiveAux li l i).countP (fun r => r.live) ≤ 1 := by
  intro l
  cases li with
  | none => intro i; rw [markLiveAux_countP_none]; omega
  | some j =>
    induction l with
    | nil => intro i; exact Nat.zero_le 1
    | cons r rs ih =>
      intro i
      show List.countP (fun r => r.live) (_ :: markLiveAux (some j) rs (i + 1)) ≤ 1
      rw [List.countP_cons]
      by_cases hji : j = i
      · subst hji
        have h0 := markLiveAux_countP_lt rs (j + 1) (Nat.lt_succ_self j)
        simp [h0]
      · have hne : (some j == some i) = false := by
          simp only [beq_eq_false_iff_ne, ne_eq, Option.some.injEq]
          exact hji
        simp only [hne, Bool.false_eq_true, if_false, Nat.add_zero]
        exact ih (i + 1)

theorem markLiveAux_live_at (li : Option Nat) :
    ∀ (l : List CatRec) (i k : Nat) (h : k < (markLiveAux li l i).length),
      ((markLiveAux li l i).get ⟨k, h⟩).live = true → li = some (i + k) := by
  intro l
  induction l with
  | nil => intro i k h; cases h
  | cons r rs ih =>
    intro i k h hl
    cases k with
    | zero =>
      have : (li == some i) = true := hl
      rw [beq_iff_eq] at this
      simpa using this
    | succ k =>
      have hrec := ih (i + 1) k (by
        have := h
        simp only [markLiveAux, List.length_cons] at this ⊢
        omega) (by exact hl)
      rw [hrec]
      have : i + 1 + k = i + (k + 1) := by omega
      rw [this]

/-! ## Lemmas about the catalog merge: cloud-only rows have mtime 0 -/

theorem setUrlAt_mem :
    ∀ (l : List CatRec) (i : Nat) (u : String) (r : CatRec), r ∈ setUrlAt l i u →
      r ∈ l ∨ ∃ r0 ∈ l, r = { r0 with youtubeUrl := some u } := by
  intro l
  induction l with
  | nil => intro i u r h; cases h
  | cons x xs ih =>
    intro i u r h
    cases i with
    | zero =>
      rcases List.mem_cons.mp h with h0 | h0
      · exact Or.inr ⟨x, List.mem_cons_self x xs, h0⟩
      · exact Or.inl (List.mem_cons_of_mem x h0)
    | succ i =>
      rcases List.mem_cons.mp h with h0 | h0
      · exact Or.inl (h0 ▸ List.mem_cons_self x xs)
      · rcases ih i u r h0 with h1 | ⟨r0, hr0, he⟩
        · exact Or.inl (List.mem_cons_of_mem x h1)
        · exact Or.inr ⟨r0, List.mem_cons_of_mem x hr0, he⟩

theorem mergeCloud_fold_mtime (date : String) (locals : List CatRec) :
    ∀ (cloud : List CloudEntry) (st : List CatRec × List CatRec)
      (h1 : ∀ r ∈ st.1, r.fullPath = none → r.mtime = 0)
      (h2 : ∀ r ∈ st.2, r.fullPath = none → r.mtime = 0)
      (r : CatRec),
      r ∈ (cloud.foldl
        (fun (st : List CatRec × List CatRec) e =>
          match lastTimeIdx locals e.time with
          | some i => (setUrlAt st.1 i e.url, st.2)
          | none => (st.1, st.2 ++ [phantomRec date e])) st).1 ++
        (cloud.foldl
          (fun (st : List CatRec × List CatRec) e =>
            match lastTimeIdx locals e.time with
            | some i => (setUrlAt st.1 i e.url, st.2)
            | none => (st.1, st.2 ++ [phantomRec date e])) st).2 →
      r.fullPath = none → r.mtime = 0 := by
  intro cloud
  induction cloud with
  | nil =>
    intro st h1 h2 r hr
    rcases List.mem_append.mp hr with h | h
    · exact h1 r h
    · exact h2 r h
  | cons e cloud ih =>
    intro st h1 h2 r hr
    simp only [List.foldl_cons] at hr
    cases hidx : lastTimeIdx locals e.time with
    | some i =>
      rw [hidx] at hr
      refine ih (setUrlAt st.1 i e.url, st.2) ?_ h2 r hr
      intro x hx hxp
      rcases setUrlAt_mem st.1 i e.url x hx with hm | ⟨r0, hr0, he⟩
      · exact h1 x hm hxp
      · subst he
        exact h1 r0 hr0 hxp
    | none =>
      rw [hidx] at hr
      refine ih (st.1, st.2 ++ [phantomRec date e]) h1 ?_ r hr
      intro x hx hxp
      rcases List.mem_append.mp hx with hm | hm
      · exact h2 x hm hxp
      · rw [List.mem_singleton.mp hm]
        rfl

theorem buildLocalRec_fullPath {recordDir date : String} {latest : Option DirEntry}
    {e : DirEntry} {r : CatRec} (h : buildLocalRec recordDir date latest e = some r) :
    r.fullPath = some e.path := by
  simp only [buildLocalRec] at h
  split at h
  · exact Option.noConfusion h
  · split at h
    · exact Option.noConfusion h
    · cases hp : parse_filename e.path with
      | none => rw [hp] at h; exact Option.noConfusion h
      | some meta =>
        rw [hp] at h
        dsimp only at h
        by_cases hd : (meta.date == date) = true
        · rw [if_pos hd] at h
          injection h with hr
          rw [← hr]
        · rw [if_neg hd] at h
          exact Option.noConfusion h

theorem catalogSorted_mtime {recordDir : String} {ch : Nat} {date : String}
    {rE nE : List DirEntry} {cloud : List CloudEntry} {r : CatRec}
    (hr : r ∈ catalogSorted recordDir ch date rE nE cloud)
    (hp : r.fullPath = none) : r.mtime = 0 := by
  simp only [catalogSorted, sortByDatetime] at hr
  rw [mem_sortBy] at hr
  refine mergeCloud_fold_mtime date _ cloud
    (buildLocalRecs recordDir date
      (localCandidates ch date rE nE)
      (latestByMtime (localCandidates ch date rE nE)), []) ?_ ?_ r hr hp
  · intro x hx hxp
    unfold buildLocalRecs at hx
    rw [List.mem_filterMap] at hx
    obtain ⟨a, _, ha⟩ := hx
    rw [buildLocalRec_fullPath ha] at hxp
    exact Option.noConfusion hxp
  · intro x hx
    cases hx

/-! ## Lemmas about the playlist synthesizer -/

theorem playlistBody_eq_specBlocks :
    ∀ (segs : List PSeg) (p : Option PSeg),
      playlistBody (p.map (fun q => q.startUs + q.durUs)) segs
        = specBlocks p segs ++ [M3U8Line.endlist] := by
  intro segs
  induction segs with
  | nil => intro p; cases p <;> rfl
  | cons s rest ih =>
    intro p
    have hrec : playlistBody (some (s.startUs + s.durUs)) rest
        = specBlocks (some s) rest ++ [M3U8Line.endlist] := ih (some s)
    cases p with
    | none =>
      show playlistBody none (s :: rest) = specBlocks none (s :: rest) ++ [M3U8Line.endlist]
      simp only [playlistBody, specBlocks]
      rw [hrec]
      simp
    | some q =>
      show playlistBody (some (q.startUs + q.durUs)) (s :: rest)
          = specBlocks (some q) (s :: rest) ++ [M3U8Line.endlist]
      simp only [playlistBody, specBlocks]
      rw [hrec]
      by_cases hg : s.startUs - (q.startUs + q.durUs) > gapThresholdUs
      · simp [hg]
      · simp [hg]

/-! ## Lemmas about segment-range selection -/

theorem segEntryFilter_some_iff {dur : Nat} {sd ed : Option Nat} {e : DirEntry} {seg : HlsSeg} :
    segEntryFilter dur sd ed e = some seg ↔
      (segEntryFilter dur none none e = some seg ∧
        (∀ v ∈ sd, v ≤ seg.startSec + dur) ∧ (∀ v ∈ ed, seg.startSec ≤ v)) := by
  unfold segEntryFilter
  split
  · simp
  · cases hp : parseSegName e.name with
    | none => simp
    | some t =>
      dsimp only
      constructor
      · intro h
        split at h
        · exact absurd h (by simp)
        · rename_i hG1
          split at h
          · exact absurd h (by simp)
          · rename_i hG2
            injection h with h
            have hss : seg.startSec = todSec t := (congrArg HlsSeg.startSec h).symm
            refine ⟨congrArg some h, ?_, ?_⟩
            · intro v hv
              cases sd with
              | none => cases hv
              | some sdv =>
                have hveq : sdv = v := by simpa using hv
                have hG1' : ¬(decide (todSec t + dur < sdv) = true) := hG1
                simp only [decide_eq_true_eq] at hG1'
                rw [hss]
                omega
            · intro v hv
              cases ed with
              | none => cases hv
              | some edv =>
                have hveq : edv = v := by simpa using hv
                have hG2' : ¬(decide (todSec t > edv) = true) := hG2
                simp only [decide_eq_true_eq] at hG2'
                rw [hss]
                omega
      · rintro ⟨h0, hSc, hEc⟩
        simp only [Bool.false_eq_true, if_false, Option.some.injEq] at h0
        have hss : seg.startSec = todSec t := (congrArg HlsSeg.startSec h0).symm
        split
        · rename_i hG1
          exfalso
          cases sd with
          | none => exact absurd hG1 (by simp)
          | some sdv =>
            have hG1' : decide (todSec t + dur < sdv) = true := hG1
            simp only [decide_eq_true_eq] at hG1'
            have hv := hSc sdv (by simp)
            rw [hss] at hv
            omega
        · split
          · rename_i _ hG2
            exfalso
            cases ed with
            | none => exact absurd hG2 (by simp)
            | some edv =>
              have hG2' : decide (todSec t > edv) = true := hG2
              simp only [decide_eq_true_eq] at hG2'
              have hv := hEc edv (by simp)
              rw [hss] at hv
              omega
          · exact congrArg some h0

theorem mem_get_segments_in_range {entries : List DirEntry} {dur : Nat}
    {S E : Option TOD} {seg : HlsSeg}
    (hS : ∀ t ∈ S, todValid t = true) (hE : ∀ t ∈ E, todValid t = true) :
    seg ∈ get_segments_in_range entries dur S E ↔
      (seg ∈ get_segments_in_range entries dur none none ∧
        (∀ t ∈ S, todSec t ≤ seg.startSec + dur) ∧
        (∀ t ∈ E, seg.startSec ≤ todSec t)) := by
  have hSd : S.bind (fun t => if todValid t then some (todSec t) else none) = S.map todSec := by
    cases S with
    | none => rfl
    | some t => simp [hS t (by simp)]
  have hEd : E.bind (fun t => if todValid t then some (todSec t) else none) = E.map todSec := by
    cases E with
    | none => rfl
    | some t => simp [hE t (by simp)]
  simp only [get_segments_in_range, Option.none_bind]
  rw [hSd, hEd, mem_sortBy, mem_sortBy, List.mem_filterMap, List.mem_filterMap]
  constructor
  · rintro ⟨a, ha, hf⟩
    rw [segEntryFilter_some_iff] at hf
    obtain ⟨h0, hSc, hEc⟩ := hf
    refine ⟨⟨a, ha, h0⟩, ?_, ?_⟩
    · intro t ht
      cases S with
      | none => cases ht
      | some ts =>
        have hts : ts = t := by simpa using ht
        subst hts
        exact hSc (todSec ts) (by simp)
    · intro t ht
      cases E with
      | none => cases ht
      | some te =>
        have hte : te = t := by simpa using ht
        subst hte
        exact hEc (todSec te) (by simp)
  · rintro ⟨⟨a, ha, h0⟩, hSc, hEc⟩
    refine ⟨a, ha, ?_⟩
    rw [segEntryFilter_some_iff]
    refine ⟨h0, ?_, ?_⟩
    · intro v hv
      cases S with
      | none => cases hv
      | some ts =>
        have hts : todSec ts = v := by simpa using hv
        subst hts
        exact hSc ts (by simp)
    · intro v hv
      cases E with
      | none => cases hv
      | some te =>
        have hte : todSec te = v := by simpa using hv
        subst hte
        exact hEc te (by simp)

/-! ## Lemmas about filename parsing -/

theorem isDigit_ne {c : Char} (h : c.isDigit = true) (x : Char) (hx : x.isDigit = false) :
    c ≠ x := by
  intro he
  subst he
  rw [h] at hx
  exact Bool.noConfusion hx

theorem takeWhile_all_append {p : Char → Bool} {l : List Char} {x : Char} (r : List Char)
    (hl : ∀ c ∈ l, p c = true) (hx : p x = false) :
    (l ++ x :: r).takeWhile p = l := by
  induction l with
  | nil => simp [List.takeWhile_cons, hx]
  | cons a t ih =>
    have ha : p a = true := hl a (List.mem_cons_self a t)
    simp only [List.cons_append, List.takeWhile_cons, ha, if_true]
    rw [ih (fun c hc => hl c (List.mem_cons_of_mem a hc))]

theorem dropWhile_all_append {p : Char → Bool} {l : List Char} {x : Char} (r : List Char)
    (hl : ∀ c ∈ l, p c = true) (hx : p x = false) :
    (l ++ x :: r).dropWhile p = x :: r := by
  induction l with
  | nil => simp [List.dropWhile_cons, hx]
  | cons a t ih =>
    have ha : p a = true := hl a (List.mem_cons_self a t)
    simp only [List.cons_append, List.dropWhile_cons, ha, if_true]
    exact ih (fun c hc => hl c (List.mem_cons_of_mem a hc))

theorem lastComponent_no_slash {l : List Char} (h : ∀ c ∈ l, c ≠ '/') :
    lastComponent l = l := by
  unfold lastComponent
  have : l.reverse.takeWhile (fun c => c ≠ '/') = l.reverse := by
    rw [List.takeWhile_eq_self_iff]  -- guess the name; may need adjustment
    intro c hc
    simp [h c (List.mem_reverse.mp hc)]
  rw [this, List.reverse_reverse]

theorem lastComponent_append {a b : List Char} (h : ∀ c ∈ b, c ≠ '/') :
    lastComponent (a ++ '/' :: b) = b := by
  unfold lastComponent
  have hrev : (a ++ '/' :: b).reverse = b.reverse ++ '/' :: a.reverse := by
    simp [List.reverse_append]
  rw [hrev, takeWhile_all_append _ (fun c hc => by
      simp [h c (List.mem_reverse.mp hc)]) (by simp), List.reverse_reverse]

theorem dirOf_append {a b : List Char} (h : ∀ c ∈ b, c ≠ '/') :
    dirOf (a ++ '/' :: b) = a := by
  unfold dirOf
  have hrev : (a ++ '/' :: b).reverse = b.reverse ++ '/' :: a.reverse := by
    simp [List.reverse_append]
  rw [hrev, dropWhile_all_append _ (fun c hc => by
      simp [h c (List.mem_reverse.mp hc)]) (by simp)]
  simp

theorem startsWithL_underscore_false {c : Char} (hc : c ≠ '_') (cs : List Char) :
    startsWithL "_uploaded".data (c :: cs) = false := by
  show (('_' == c) && startsWithL "uploaded".data cs) = false
  have : ('_' == c) = false := by
    rw [beq_eq_false_iff_ne]
    exact fun he => hc he.symm
  rw [this, Bool.false_and]

theorem replUploadedAux_cons_ne {c : Char} (hc : c ≠ '_') (fuel : Nat) (cs : List Char) :
    replUploadedAux (fuel + 1) (c :: cs) = c :: replUploadedAux fuel cs := by
  rw [replUploadedAux, startsWithL_underscore_false hc]
  simp

theorem replUploadedAux_append {l : List Char} (hl : ∀ c ∈ l, c ≠ '_') :
    ∀ (n : Nat) (r : List Char),
      replUploadedAux (l.length + n) (l ++ r) = l ++ replUploadedAux n r := by
  induction l with
  | nil => intro n r; simp
  | cons a t ih =>
    intro n r
    have ha : a ≠ '_' := hl a (List.mem_cons_self a t)
    have hlen : (a :: t).length + n = (t.length + n) + 1 := by
      simp only [List.length_cons]
      omega
    rw [hlen, List.cons_append, replUploadedAux_cons_ne ha,
      ih (fun c hc => hl c (List.mem_cons_of_mem a hc)) n r, List.cons_append]

theorem splitOnCh_ne_nil (sep : Char) : ∀ l, splitOnCh sep l ≠ [] := by
  intro l
  induction l with
  | nil => simp [splitOnCh]
  | cons c cs ih =>
    unfold splitOnCh
    cases h : splitOnCh sep cs with
    | nil => exact absurd h ih
    | cons g gs =>
      by_cases he : (c == sep) = true
      · simp [he]
      · simp [he]

theorem splitOnCh_dateL {y1 y2 y3 y4 mo1 mo2 d1 d2 : Char}
    (h1 : (y1 == '-') = false) (h2 : (y2 == '-') = false)
    (h3 : (y3 == '-') = false) (h4 : (y4 == '-') = false)
    (h5 : (mo1 == '-') = false) (h6 : (mo2 == '-') = false)
    (h7 : (d1 == '-') = false) (h8 : (d2 == '-') = false) :
    splitOnCh '-' [y1, y2, y3, y4, '-', mo1, mo2, '-', d1, d2] =
      [[y1, y2, y3, y4], [mo1, mo2], [d1, d2]] := by
  simp [splitOnCh, h1, h2, h3, h4, h5, h6, h7, h8]

theorem matchFlatAt_not_c {c : Char} (hc : (c == 'c') = false) (l : List Char) :
    matchFlatAt (c :: l) = none := by
  cases l with
  | nil => rfl
  | cons c2 t =>
    show (if (c == 'c' && c2 == 'h') = true then
      let ds := List.takeWhile Char.isDigit t
      if ds.isEmpty = true then none else matchFlatGroups ds (List.drop ds.length t)
      else none) = none
    rw [hc, Bool.false_and]
    simp

theorem searchFlat_cons_none {c : Char} {l : List Char}
    (h : matchFlatAt (c :: l) = none) : searchFlat (c :: l) = searchFlat l := by
  conv_lhs => rw [searchFlat, h]

theorem matchFlatAt_flat {cs : List Char}
    {y1 y2 y3 y4 mo1 mo2 d1 d2 h1 h2 i1 i2 s1 s2 : Char} (rest : List Char)
    (hcs : cs ≠ []) (hcsd : ∀ c ∈ cs, c.isDigit = true)
    (e1 : y1.isDigit = true) (e2 : y2.isDigit = true)
    (e3 : y3.isDigit = true) (e4 : y4.isDigit = true)
    (e5 : mo1.isDigit = true) (e6 : mo2.isDigit = true)
    (e7 : d1.isDigit = true) (e8 : d2.isDigit = true)
    (e9 : h1.isDigit = true) (e10 : h2.isDigit = true)
    (e11 : i1.isDigit = true) (e12 : i2.isDigit = true)
    (e13 : s1.isDigit = true) (e14 : s2.isDigit = true) :
    matchFlatAt ('c' :: 'h' :: (cs ++ '_' :: y1 :: y2 :: y3 :: y4 :: mo1 :: mo2 :: d1 :: d2 ::
        '_' :: h1 :: h2 :: i1 :: i2 :: s1 :: s2 :: rest)) =
      some ⟨cs, [y1, y2, y3, y4], [mo1, mo2], [d1, d2], [h1, h2], [i1, i2], [s1, s2]⟩ := by
  have htake : (cs ++ '_' :: y1 :: y2 :: y3 :: y4 :: mo1 :: mo2 :: d1 :: d2 ::
      '_' :: h1 :: h2 :: i1 :: i2 :: s1 :: s2 :: rest).takeWhile Char.isDigit = cs :=
    takeWhile_all_append _ hcsd (by decide)
  have hne : cs.isEmpty = false := by
    cases cs with
    | nil => exact absurd rfl hcs
    | cons a t => rfl
  set T := cs ++ '_' :: y1 :: y2 :: y3 :: y4 :: mo1 :: mo2 :: d1 :: d2 ::
      '_' :: h1 :: h2 :: i1 :: i2 :: s1 :: s2 :: rest with hT
  show (if (T.takeWhile Char.isDigit).isEmpty = true then none
    else matchFlatGroups (T.takeWhile Char.isDigit)
      (T.drop (T.takeWhile Char.isDigit).length)) =
    some ⟨cs, [y1, y2, y3, y4], [mo1, mo2], [d1, d2], [h1, h2], [i1, i2], [s1, s2]⟩
  rw [htake, hne, hT, List.drop_left]
  simp only [Bool.false_eq_true, if_false]
  show (if (('_' == '_') && ('_' == '_') &&
      y1.isDigit && y2.isDigit && y3.isDigit && y4.isDigit &&
      mo1.isDigit && mo2.isDigit && d1.isDigit && d2.isDigit &&
      h1.isDigit && h2.isDigit && i1.isDigit && i2.isDigit &&
      s1.isDigit && s2.isDigit) = true then
      some ⟨cs, [y1, y2, y3, y4], [mo1, mo2], [d1, d2], [h1, h2], [i1, i2], [s1, s2]⟩
    else none) =
    some (⟨cs, [y1, y2, y3, y4], [mo1, mo2], [d1, d2], [h1, h2], [i1, i2], [s1, s2]⟩ : FlatGroups)
  simp [e1, e2, e3, e4, e5, e6, e7, e8, e9, e10, e11, e12, e13, e14]

theorem parse_filename_flat {cs : List Char}
    {y1 y2 y3 y4 mo1 mo2 d1 d2 h1 h2 i1 i2 s1 s2 : Char} {ext : String}
    (hcs : cs ≠ []) (hcsd : ∀ c ∈ cs, c.isDigit = true)
    (e1 : y1.isDigit = true) (e2 : y2.isDigit = true)
    (e3 : y3.isDigit = true) (e4 : y4.isDigit = true)
    (e5 : mo1.isDigit = true) (e6 : mo2.isDigit = true)
    (e7 : d1.isDigit = true) (e8 : d2.isDigit = true)
    (e9 : h1.isDigit = true) (e10 : h2.isDigit = true)
    (e11 : i1.isDigit = true) (e12 : i2.isDigit = true)
    (e13 : s1.isDigit = true) (e14 : s2.isDigit = true)
    (hextSlash : ∀ c ∈ ext.data, c ≠ '/') :
    parse_filename ⟨'c' :: 'h' :: (cs ++ '_' :: y1 :: y2 :: y3 :: y4 :: mo1 :: mo2 :: d1 :: d2 ::
        '_' :: h1 :: h2 :: i1 :: i2 :: s1 :: s2 :: ext.data)⟩ =
      some { channel := digitsVal cs,
             date := ⟨[y1, y2, y3, y4, '-', mo1, mo2, '-', d1, d2]⟩,
             time := ⟨[h1, h2, ':', i1, i2, ':', s1, s2]⟩,
             datetime := ⟨[d1, d2, '/', mo1, mo2, '/', y1, y2, y3, y4, ' ',
               h1, h2, ':', i1, i2, ':', s1, s2]⟩ } := by
  have hslash : ∀ c ∈ ('c' :: 'h' :: (cs ++ '_' :: y1 :: y2 :: y3 :: y4 :: mo1 :: mo2 ::
      d1 :: d2 :: '_' :: h1 :: h2 :: i1 :: i2 :: s1 :: s2 :: ext.data)), c ≠ '/' := by
    intro c hc
    simp only [List.mem_cons, List.mem_append] at hc
    rcases hc with rfl | rfl | hc | rfl | rfl | rfl | rfl | rfl | rfl | rfl | rfl | rfl |
      rfl | rfl | rfl | rfl | rfl | rfl | rfl | hc
    all_goals first
      | decide
      | exact isDigit_ne (hcsd c hc) _ (by decide)
      | exact isDigit_ne (by assumption) _ (by decide)
      | exact hextSlash c hc
  have hfname : lastComponent ('c' :: 'h' :: (cs ++ '_' :: y1 :: y2 :: y3 :: y4 :: mo1 :: mo2 ::
      d1 :: d2 :: '_' :: h1 :: h2 :: i1 :: i2 :: s1 :: s2 :: ext.data)) =
      'c' :: 'h' :: (cs ++ '_' :: y1 :: y2 :: y3 :: y4 :: mo1 :: mo2 ::
      d1 :: d2 :: '_' :: h1 :: h2 :: i1 :: i2 :: s1 :: s2 :: ext.data) :=
    lastComponent_no_slash hslash
  have hsearch : searchFlat ('c' :: 'h' :: (cs ++ '_' :: y1 :: y2 :: y3 :: y4 :: mo1 :: mo2 ::
      d1 :: d2 :: '_' :: h1 :: h2 :: i1 :: i2 :: s1 :: s2 :: ext.data)) =
      some ⟨cs, [y1, y2, y3, y4], [mo1, mo2], [d1, d2], [h1, h2], [i1, i2], [s1, s2]⟩ := by
    conv_lhs => rw [searchFlat]
    rw [matchFlatAt_flat ext.data hcs hcsd e1 e2 e3 e4 e5 e6 e7 e8 e9 e10 e11 e12 e13 e14]
  simp only [parse_filename]
  rw [hfname, hsearch]
  rfl

theorem parse_filename_nested {cs : List Char}
    {y1 y2 y3 y4 mo1 mo2 d1 d2 h1 h2 i1 i2 s1 s2 : Char} {ext : String}
    (e1 : y1.isDigit = true) (e2 : y2.isDigit = true)
    (e3 : y3.isDigit = true) (e4 : y4.isDigit = true)
    (e5 : mo1.isDigit = true) (e6 : mo2.isDigit = true)
    (e7 : d1.isDigit = true) (e8 : d2.isDigit = true)
    (e9 : h1.isDigit = true) (e10 : h2.isDigit = true)
    (e11 : i1.isDigit = true) (e12 : i2.isDigit = true)
    (e13 : s1.isDigit = true) (e14 : s2.isDigit = true)
    (hextSlash : ∀ c ∈ ext.data, c ≠ '/')
    (hextSearch : searchFlat ext.data = none)
    (hextRepl : replUploadedAux ext.data.length ext.data = ext.data)
    (hextDot : ∃ r, ext.data = '.' :: r) :
    parse_filename ⟨'c' :: 'h' :: (cs ++ '/' :: y1 :: y2 :: y3 :: y4 :: '-' :: mo1 :: mo2 ::
        '-' :: d1 :: d2 :: '/' :: h1 :: h2 :: i1 :: i2 :: s1 :: s2 :: ext.data)⟩ =
      some { channel := 0,
             date := ⟨[y1, y2, y3, y4, '-', mo1, mo2, '-', d1, d2]⟩,
             time := ⟨[h1, h2, ':', i1, i2, ':', s1, s2]⟩,
             datetime := ⟨[d1, d2, '/', mo1, mo2, '/', y1, y2, y3, y4, ' ',
               h1, h2, ':', i1, i2, ':', s1, s2]⟩ } := by
  obtain ⟨extR, hextR⟩ := hextDot
  have hfslash : ∀ c ∈ (h1 :: h2 :: i1 :: i2 :: s1 :: s2 :: ext.data), c ≠ '/' := by
    intro c hc
    simp only [List.mem_cons] at hc
    rcases hc with rfl | rfl | rfl | rfl | rfl | rfl | hc
    all_goals first
      | exact isDigit_ne (by assumption) _ (by decide)
      | exact hextSlash c hc
  have hdslash : ∀ c ∈ ([y1, y2, y3, y4, '-', mo1, mo2, '-', d1, d2] : List Char), c ≠ '/' := by
    intro c hc
    simp only [List.mem_cons] at hc
    rcases hc with rfl | rfl | rfl | rfl | rfl | rfl | rfl | rfl | rfl | rfl | hc
    all_goals first
      | decide
      | exact isDigit_ne (by assumption) _ (by decide)
      | exact absurd hc (List.not_mem_nil c)
  have hshape : ('c' :: 'h' :: (cs ++ '/' :: y1 :: y2 :: y3 :: y4 :: '-' :: mo1 :: mo2 ::
      '-' :: d1 :: d2 :: '/' :: h1 :: h2 :: i1 :: i2 :: s1 :: s2 :: ext.data)) =
      ('c' :: 'h' :: (cs ++ '/' :: [y1, y2, y3, y4, '-', mo1, mo2, '-', d1, d2]))
        ++ '/' :: (h1 :: h2 :: i1 :: i2 :: s1 :: s2 :: ext.data) := by
    simp
  have hfname : lastComponent ('c' :: 'h' :: (cs ++ '/' :: y1 :: y2 :: y3 :: y4 :: '-' ::
      mo1 :: mo2 :: '-' :: d1 :: d2 :: '/' :: h1 :: h2 :: i1 :: i2 :: s1 :: s2 :: ext.data)) =
      h1 :: h2 :: i1 :: i2 :: s1 :: s2 :: ext.data := by
    rw [hshape]
    exact lastComponent_append hfslash
  have hdir : dirOf ('c' :: 'h' :: (cs ++ '/' :: y1 :: y2 :: y3 :: y4 :: '-' ::
      mo1 :: mo2 :: '-' :: d1 :: d2 :: '/' :: h1 :: h2 :: i1 :: i2 :: s1 :: s2 :: ext.data)) =
      'c' :: 'h' :: (cs ++ '/' :: [y1, y2, y3, y4, '-', mo1, mo2, '-', d1, d2]) := by
    rw [hshape]
    exact dirOf_append hfslash
  have hparent : lastComponent ('c' :: 'h' ::
      (cs ++ '/' :: [y1, y2, y3, y4, '-', mo1, mo2, '-', d1, d2])) =
      [y1, y2, y3, y4, '-', mo1, mo2, '-', d1, d2] := by
    rw [show ('c' :: 'h' :: (cs ++ '/' :: [y1, y2, y3, y4, '-', mo1, mo2, '-', d1, d2])) =
      ('c' :: 'h' :: cs) ++ '/' :: [y1, y2, y3, y4, '-', mo1, mo2, '-', d1, d2] from by simp]
    exact lastComponent_append hdslash
  have hstep : ∀ (c : Char), c.isDigit = true → ∀ l, searchFlat (c :: l) = searchFlat l := by
    intro c hcd l
    refine searchFlat_cons_none (matchFlatAt_not_c ?_ l)
    rw [beq_eq_false_iff_ne]
    exact isDigit_ne hcd _ (by decide)
  have hsearchF : searchFlat (h1 :: h2 :: i1 :: i2 :: s1 :: s2 :: ext.data) = none := by
    rw [hstep h1 e9, hstep h2 e10, hstep i1 e11, hstep i2 e12, hstep s1 e13, hstep s2 e14]
    exact hextSearch
  have hmds : matchDateStart [y1, y2, y3, y4, '-', mo1, mo2, '-', d1, d2] = true := by
    show (y1.isDigit && y2.isDigit && y3.isDigit && y4.isDigit && ('-' == '-') &&
      mo1.isDigit && mo2.isDigit && ('-' == '-') && d1.isDigit && d2.isDigit) = true
    simp [e1, e2, e3, e4, e5, e6, e7, e8]
  have hnound : ∀ c ∈ ([h1, h2, i1, i2, s1, s2] : List Char), c ≠ '_' := by
    intro c hc
    simp only [List.mem_cons] at hc
    rcases hc with rfl | rfl | rfl | rfl | rfl | rfl | hc
    all_goals first
      | exact isDigit_ne (by assumption) _ (by decide)
      | exact absurd hc (List.not_mem_nil c)
  have hrepl : replUploaded (h1 :: h2 :: i1 :: i2 :: s1 :: s2 :: ext.data)
      = h1 :: h2 :: i1 :: i2 :: s1 :: s2 :: ext.data := by
    unfold replUploaded
    rw [show (h1 :: h2 :: i1 :: i2 :: s1 :: s2 :: ext.data)
      = ([h1, h2, i1, i2, s1, s2] : List Char) ++ ext.data from by simp]
    rw [show (([h1, h2, i1, i2, s1, s2] : List Char) ++ ext.data).length
      = ([h1, h2, i1, i2, s1, s2] : List Char).length + ext.data.length from by
        simp only [List.length_append, List.length_cons, List.length_nil]]
    rw [replUploadedAux_append hnound, hextRepl]
  have htp : (h1 :: h2 :: i1 :: i2 :: s1 :: s2 :: ext.data).takeWhile
      (fun c => decide (c ≠ '.')) = [h1, h2, i1, i2, s1, s2] := by
    rw [show (h1 :: h2 :: i1 :: i2 :: s1 :: s2 :: ext.data)
      = ([h1, h2, i1, i2, s1, s2] : List Char) ++ '.' :: extR from by simp [hextR]]
    refine takeWhile_all_append _ ?_ (by decide)
    intro c hc
    simp only [List.mem_cons] at hc
    rcases hc with rfl | rfl | rfl | rfl | rfl | rfl | hc
    all_goals first
      | (simp only [decide_eq_true_eq]; exact isDigit_ne (by assumption) _ (by decide))
      | exact absurd hc (List.not_mem_nil c)
  have hsplit : splitOnCh '-' [y1, y2, y3, y4, '-', mo1, mo2, '-', d1, d2] =
      [[y1, y2, y3, y4], [mo1, mo2], [d1, d2]] := by
    refine splitOnCh_dateL ?_ ?_ ?_ ?_ ?_ ?_ ?_ ?_ <;>
      rw [beq_eq_false_iff_ne] <;> exact isDigit_ne (by assumption) _ (by decide)
  simp only [parse_filename]
  rw [hfname, hsearchF, hdir, hparent, hmds]
  simp only [if_true]
  rw [hrepl, htp]
  simp only [List.length_cons, List.length_nil]
  rw [hsplit]
  rfl

/-! # Claim theorems -/

/-- Claim C1, counterexample: at 520 GB of usage against a 500 GB soft limit
with upload-awareness disabled, a Stage 1 pass frees only 2^30 bytes (1 GB),
which is far below 10 percent of the limit, even though an eligible
candidate file remains undeleted.  The pass has no byte target at all: it
deletes the oldest half of the candidate files by count. -/
theorem stage1_ten_percent_target_counterexample :
    let files : List FileInfo :=
      [⟨"a.mp4", 2 ^ 30, 0, 0⟩, ⟨"b.mp4", 519 * 2 ^ 30, 1, 1⟩]
    totalBytes files = 520 * 2 ^ 30 ∧
    freedBytes (stage1Standard 500 files) = 2 ^ 30 ∧
    ¬ (freedBytes (stage1Standard 500 files) ≥ 50 * 2 ^ 30 ∨
        ∀ f ∈ get_all_recordings files, f ∈ stage1Standard 500 files) := by
  decide

/-- Claim C1, amended: with upload-awareness disabled and usage above the
soft limit, a Stage 1 pass deletes exactly the oldest `max 1 (n / 2)` of
the `n` candidate files (by creation time), regardless of how many bytes
that frees; the bytes freed are simply the sizes of those files. -/
theorem stage1_deletes_oldest_half (L : Nat) (files : List FileInfo)
    (hover : totalBytes files > L * 2 ^ 30)
    (hne : get_all_recordings files ≠ []) :
    stage1Standard L files =
      (get_all_recordings files).take (max 1 ((get_all_recordings files).length / 2)) ∧
    freedBytes (stage1Standard L files) =
      (((get_all_recordings files).take
        (max 1 ((get_all_recordings files).length / 2))).map (fun f => f.sizeBytes)).sum := by
  refine ⟨stage1Standard_eq hover hne, ?_⟩
  rw [stage1Standard_eq hover hne]
  rfl

/-- Witness for the amended C1 statement at a concrete input. -/
theorem stage1_deletes_oldest_half_witness :
    stage1Standard 500 [⟨"a.mp4", 2 ^ 30, 0, 0⟩, ⟨"b.mp4", 519 * 2 ^ 30, 1, 1⟩] =
      (get_all_recordings [⟨"a.mp4", 2 ^ 30, 0, 0⟩, ⟨"b.mp4", 519 * 2 ^ 30, 1, 1⟩]).take
        (max 1 ((get_all_recordings
          [⟨"a.mp4", 2 ^ 30, 0, 0⟩, ⟨"b.mp4", 519 * 2 ^ 30, 1, 1⟩]).length / 2)) ∧
    freedBytes (stage1Standard 500 [⟨"a.mp4", 2 ^ 30, 0, 0⟩, ⟨"b.mp4", 519 * 2 ^ 30, 1, 1⟩]) =
      (((get_all_recordings [⟨"a.mp4", 2 ^ 30, 0, 0⟩, ⟨"b.mp4", 519 * 2 ^ 30, 1, 1⟩]).take
        (max 1 ((get_all_recordings
          [⟨"a.mp4", 2 ^ 30, 0, 0⟩, ⟨"b.mp4", 519 * 2 ^ 30, 1, 1⟩]).length / 2))).map
            (fun f => f.sizeBytes)).sum :=
  stage1_deletes_oldest_half 500 _ (by decide) (by decide)

/-- Claim C2, counterexample: a single candidate file modified one second
ago (mtime 99, now 100) is selected and deleted by a Stage 1 pass — inside
the 15-second live-protection window the claim says is honored. -/
theorem stage1_recency_protection_counterexample :
    let files : List FileInfo := [⟨"a.mp4", 2 * 2 ^ 30, 99, 99⟩]
    totalBytes files > 1 * 2 ^ 30 ∧
    stage1Standard 1 files = files ∧
    (∀ f ∈ stage1Standard 1 files, (100 : Int) - f.mtime < 15) ∧
    stage1Standard 1 files ≠ [] := by
  decide

/-- Claim C2, amended: Stage 1 applies no recency protection at all — its
selection depends only on extension and creation-time order.  Even when
every candidate file lies inside the 15-second live window, a pass over an
over-limit store still selects (and deletes) a file inside that window. -/
theorem stage1_no_recency_protection (L : Nat) (files : List FileInfo) (now : Int)
    (hover : totalBytes files > L * 2 ^ 30)
    (hne : get_all_recordings files ≠ [])
    (hall : ∀ f ∈ get_all_recordings files, now - f.mtime < 15) :
    ∃ f ∈ stage1Standard L files, now - f.mtime < 15 := by
  rw [stage1Standard_eq hover hne]
  cases hgar : get_all_recordings files with
  | nil => exact absurd hgar hne
  | cons a l =>
    refine ⟨a, ?_, hall a (by rw [hgar]; exact List.mem_cons_self a l)⟩
    have hpos : 0 < max 1 ((a :: l).length / 2) :=
      Nat.lt_of_lt_of_le Nat.zero_lt_one (Nat.le_max_left _ _)
    show a ∈ List.take (max 1 ((a :: l).length / 2)) (a :: l)
    cases hk : max 1 ((a :: l).length / 2) with
    | zero =>
      rw [hk] at hpos
      exact absurd hpos (by omega)
    | succ k =>
      rw [List.take_succ_cons]
      exact List.mem_cons_self a _

/-- Witness for the amended C2 statement at a concrete input. -/
theorem stage1_no_recency_protection_witness :
    ∃ f ∈ stage1Standard 1 [⟨"a.mp4", 2 * 2 ^ 30, 99, 99⟩], (100 : Int) - f.mtime < 15 :=
  stage1_no_recency_protection 1 _ 100 (by decide) (by decide) (by decide)

/-- Claim C10: every file the eviction engine enumerates as a deletion
candidate carries an `.mp4` or `.mkv` suffix and never a `.ts` suffix, and
every file any deletion stage removes (standard Stage 1, upload-aware
Stage 1 or critical Stage 2) is such a candidate — so the `.ts` segments
the channel recorder writes are never deleted by the eviction engine. -/
theorem eviction_only_mp4_mkv (L S : Nat) (files : List FileInfo) (f : FileInfo) :
    (f ∈ get_all_recordings files →
      (hasSuffix f.path ".mp4" = true ∨ hasSuffix f.path ".mkv" = true) ∧
        hasSuffix f.path ".ts" = false) ∧
    (f ∈ stage1Standard L files → f ∈ get_all_recordings files) ∧
    (f ∈ stage1UploadAware L files → f ∈ get_all_recordings files) ∧
    (f ∈ stage2Critical L S files → f ∈ get_all_recordings files) := by
  refine ⟨?_, stage1Standard_subset, stage1UploadAware_subset, stage2Critical_subset⟩
  intro hf
  have h := mem_get_all_recordings.mp hf
  rcases h.2 with h4 | hkv
  · exact ⟨Or.inl h4, not_ts_of_mp4 h4⟩
  · exact ⟨Or.inr hkv, not_ts_of_mkv hkv⟩

/-- Witness for C10 at a concrete input. -/
theorem eviction_only_mp4_mkv_witness :
    (hasSuffix (FileInfo.path ⟨"a.mp4", 5, 0, 0⟩) ".mp4" = true ∨
      hasSuffix (FileInfo.path ⟨"a.mp4", 5, 0, 0⟩) ".mkv" = true) ∧
    hasSuffix (FileInfo.path ⟨"a.mp4", 5, 0, 0⟩) ".ts" = false :=
  (eviction_only_mp4_mkv 1 1 [⟨"a.mp4", 5, 0, 0⟩] ⟨"a.mp4", 5, 0, 0⟩).1 (by decide)

/-- Claim C8, counterexample: the trace of filesystem operations performed
by `MetadataCache.save` is a single direct write of the cache file; it is
never of the claimed write-temporary-then-rename form. -/
theorem metadata_save_atomic_counterexample :
    ¬ ∃ tmp : String, MetadataCache_saveOps "metadata_cache.json" "{}" =
      [FsOp.write tmp "{}", FsOp.rename tmp "metadata_cache.json"] := by
  rintro ⟨tmp, h⟩
  simp [MetadataCache_saveOps] at h

/-- Claim C8, amended: `MetadataCache.save` writes the serialized map
directly, in place, to the cache file — a single write operation with no
temporary file and no rename. -/
theorem metadata_save_direct_write (cacheFile serialized : String) :
    MetadataCache_saveOps cacheFile serialized = [FsOp.write cacheFile serialized] := rfl

/-- Claim C9: storing a duration under the fingerprint `(p, s, m)` in an
empty cache and querying the same fingerprint returns exactly that value,
and querying the same path with a different size or a different mtime
misses, because the decimal renderings in the key contain no underscore
and hence distinct sizes or mtimes always produce distinct keys. -/
theorem duration_cache_roundtrip (p : String) (s m t u : Nat) (d : ℚ) :
    get_duration (set_duration [] p s m d) p s m = some d ∧
    (s ≠ t ∨ m ≠ u → get_duration (set_duration [] p s m d) p t u = none) := by
  constructor
  · exact dictGet_set_same _ _
  · intro hne
    refine dictGet_set_other d ?_
    intro hkey
    rcases cacheKey_inj hkey with ⟨hs, hm⟩
    rcases hne with h | h
    · exact h hs.symm
    · exact h hm.symm

/-- Witness for C9 at a concrete input. -/
theorem duration_cache_roundtrip_witness :
    get_duration (set_duration [] "a" 1 2 5) "a" 1 2 = some 5 ∧
    get_duration (set_duration [] "a" 1 2 5) "a" 1 3 = none :=
  ⟨(duration_cache_roundtrip "a" 1 2 1 3 5).1,
   (duration_cache_roundtrip "a" 1 2 1 3 5).2 (Or.inr (by decide))⟩

/-- Claim C6: a segment is included in a playlist range query exactly when
it is a valid segment of the channel/date directory whose computed end
(start plus the configured segment duration) is at or after the start
bound (when one is given) and whose start is not after the end bound (when
one is given); and in the concrete scenario with segments at 10:00:00,
10:10:00 and 10:25:00 of 600 seconds each, the query with start 10:05:00
and end 10:20:00 returns exactly the first two. -/
theorem playlist_range_selection :
    (∀ (entries : List DirEntry) (dur : Nat) (S E : Option TOD) (seg : HlsSeg),
      (∀ t ∈ S, todValid t = true) → (∀ t ∈ E, todValid t = true) →
      (seg ∈ get_segments_in_range entries dur S E ↔
        (seg ∈ get_segments_in_range entries dur none none ∧
          (∀ t ∈ S, todSec t ≤ seg.startSec + dur) ∧
          (∀ t ∈ E, seg.startSec ≤ todSec t)))) ∧
    ((get_segments_in_range
        [⟨"100000.ts", "d/100000.ts", true, 0, 0⟩, ⟨"101000.ts", "d/101000.ts", true, 0, 0⟩,
         ⟨"102500.ts", "d/102500.ts", true, 0, 0⟩] 600
        (some ⟨10, 5, 0⟩) (some ⟨10, 20, 0⟩)).map (fun s => s.timeStr)) =
      ["10:00:00", "10:10:00"] := by
  constructor
  · intro entries dur S E seg hS hE
    exact mem_get_segments_in_range hS hE
  · decide

/-- Witness for C6: the first segment of the scenario is selected, by the
general membership characterization applied at the concrete input. -/
theorem playlist_range_selection_witness :
    (⟨"100000.ts", "10:00:00", 36000, 600⟩ : HlsSeg) ∈ get_segments_in_range
      [⟨"100000.ts", "d/100000.ts", true, 0, 0⟩, ⟨"101000.ts", "d/101000.ts", true, 0, 0⟩,
       ⟨"102500.ts", "d/102500.ts", true, 0, 0⟩] 600
      (some ⟨10, 5, 0⟩) (some ⟨10, 20, 0⟩) :=
  (playlist_range_selection.1
    [⟨"100000.ts", "d/100000.ts", true, 0, 0⟩, ⟨"101000.ts", "d/101000.ts", true, 0, 0⟩,
     ⟨"102500.ts", "d/102500.ts", true, 0, 0⟩] 600
    (some ⟨10, 5, 0⟩) (some ⟨10, 20, 0⟩) ⟨"100000.ts", "10:00:00", 36000, 600⟩
    (by decide) (by decide)).mpr ⟨by decide, by decide, by decide⟩

/-- Claim C7: for a nonempty segment list the generated playlist is the
header followed, for each segment, by a discontinuity marker exactly when
the segment has a predecessor and the gap between the predecessor computed
end (start plus duration) and the segment start exceeds 1.5 seconds
(`specBlocks` — no marker ever precedes the first segment and none appears
for gaps at or below the threshold), then the segment lines, and finally
the end marker. -/
theorem discontinuity_iff_gap (segs : List PSeg) (hne : segs ≠ []) :
    generate_m3u8_playlist segs =
      playlistHeader (maxDurUs segs) ++ specBlocks none segs ++ [M3U8Line.endlist] := by
  unfold generate_m3u8_playlist
  have hempty : segs.isEmpty = false := by
    cases segs with
    | nil => exact absurd rfl hne
    | cons a l => rfl
  rw [hempty]
  simp only [Bool.false_eq_true, if_false]
  have hb : playlistBody none segs = specBlocks none segs ++ [M3U8Line.endlist] :=
    playlistBody_eq_specBlocks segs none
  rw [hb, List.append_assoc]

/-- Witness for C7 at a concrete input (two segments with a 10-second
gap). -/
theorem discontinuity_iff_gap_witness :
    generate_m3u8_playlist [⟨0, 10000000, "a.ts"⟩, ⟨20000000, 10000000, "b.ts"⟩] =
      playlistHeader (maxDurUs [⟨0, 10000000, "a.ts"⟩, ⟨20000000, 10000000, "b.ts"⟩]) ++
        specBlocks none [⟨0, 10000000, "a.ts"⟩, ⟨20000000, 10000000, "b.ts"⟩] ++
        [M3U8Line.endlist] :=
  discontinuity_iff_gap _ (by decide)

/-- Claim C5, counterexample: the flat name `ch1_20251226_103000.mp4` and
the nested name `ch1/2025-12-26/103000.mp4` denote the same logical
segment, but parsing them does not yield the same triple: the flat form
yields channel 1 while the nested form yields channel 0. -/
theorem dual_convention_counterexample :
    parse_filename "ch1_20251226_103000.mp4" ≠
      parse_filename "ch1/2025-12-26/103000.mp4" ∧
    (parse_filename "ch1_20251226_103000.mp4").map (fun m => m.channel) = some 1 ∧
    (parse_filename "ch1/2025-12-26/103000.mp4").map (fun m => m.channel) = some 0 ∧
    (parse_filename "ch1_20251226_103000.mp4").map (fun m => (m.date, m.time)) =
      (parse_filename "ch1/2025-12-26/103000.mp4").map (fun m => (m.date, m.time)) := by
  decide

/-- Claim C5, amended: for every segment written under both conventions
(channel digits `cs`, date digits, time digits, container extension),
parsing succeeds on both names and yields the same date, time and derived
datetime; the channel fields differ — the flat form yields the numeric
channel while the nested form always yields channel 0 (the channel is
supplied by caller context there), so the triples agree in date and time
but not in channel. -/
theorem dual_convention_parse {cs : List Char}
    {y1 y2 y3 y4 mo1 mo2 d1 d2 h1 h2 i1 i2 s1 s2 : Char} {ext : String}
    (hcs : cs ≠ []) (hcsd : ∀ c ∈ cs, c.isDigit = true)
    (e1 : y1.isDigit = true) (e2 : y2.isDigit = true)
    (e3 : y3.isDigit = true) (e4 : y4.isDigit = true)
    (e5 : mo1.isDigit = true) (e6 : mo2.isDigit = true)
    (e7 : d1.isDigit = true) (e8 : d2.isDigit = true)
    (e9 : h1.isDigit = true) (e10 : h2.isDigit = true)
    (e11 : i1.isDigit = true) (e12 : i2.isDigit = true)
    (e13 : s1.isDigit = true) (e14 : s2.isDigit = true)
    (hext : ext = ".mp4" ∨ ext = ".mkv" ∨ ext = ".ts") :
    parse_filename ⟨'c' :: 'h' :: (cs ++ '_' :: y1 :: y2 :: y3 :: y4 :: mo1 :: mo2 :: d1 :: d2 ::
        '_' :: h1 :: h2 :: i1 :: i2 :: s1 :: s2 :: ext.data)⟩ =
      some { channel := digitsVal cs,
             date := ⟨[y1, y2, y3, y4, '-', mo1, mo2, '-', d1, d2]⟩,
             time := ⟨[h1, h2, ':', i1, i2, ':', s1, s2]⟩,
             datetime := ⟨[d1, d2, '/', mo1, mo2, '/', y1, y2, y3, y4, ' ',
               h1, h2, ':', i1, i2, ':', s1, s2]⟩ } ∧
    parse_filename ⟨'c' :: 'h' :: (cs ++ '/' :: y1 :: y2 :: y3 :: y4 :: '-' :: mo1 :: mo2 ::
        '-' :: d1 :: d2 :: '/' :: h1 :: h2 :: i1 :: i2 :: s1 :: s2 :: ext.data)⟩ =
      some { channel := 0,
             date := ⟨[y1, y2, y3, y4, '-', mo1, mo2, '-', d1, d2]⟩,
             time := ⟨[h1, h2, ':', i1, i2, ':', s1, s2]⟩,
             datetime := ⟨[d1, d2, '/', mo1, mo2, '/', y1, y2, y3, y4, ' ',
               h1, h2, ':', i1, i2, ':', s1, s2]⟩ } := by
  have hextSlash : ∀ c ∈ ext.data, c ≠ '/' := by
    rcases hext with h | h | h <;> subst h <;> decide
  constructor
  · exact parse_filename_flat hcs hcsd e1 e2 e3 e4 e5 e6 e7 e8 e9 e10 e11 e12 e13 e14
      hextSlash
  · refine parse_filename_nested e1 e2 e3 e4 e5 e6 e7 e8 e9 e10 e11 e12 e13 e14
      hextSlash ?_ ?_ ?_
    · rcases hext with h | h | h <;> subst h <;> decide
    · rcases hext with h | h | h <;> subst h <;> decide
    · rcases hext with h | h | h <;> subst h
      · exact ⟨['m', 'p', '4'], rfl⟩
      · exact ⟨['m', 'k', 'v'], rfl⟩
      · exact ⟨['t', 's'], rfl⟩

/-- Witness for the amended C5 statement at the concrete segment
`ch1 / 2025-12-26 / 10:30:00 / .mp4`. -/
theorem dual_convention_parse_witness :
    parse_filename ⟨'c' :: 'h' :: (['1'] ++ '_' :: '2' :: '0' :: '2' :: '5' :: '1' :: '2' ::
        '2' :: '6' :: '_' :: '1' :: '0' :: '3' :: '0' :: '0' :: '0' :: ".mp4".data)⟩ =
      some { channel := digitsVal ['1'],
             date := ⟨['2', '0', '2', '5', '-', '1', '2', '-', '2', '6']⟩,
             time := ⟨['1', '0', ':', '3', '0', ':', '0', '0']⟩,
             datetime := ⟨['2', '6', '/', '1', '2', '/', '2', '0', '2', '5', ' ',
               '1', '0', ':', '3', '0', ':', '0', '0']⟩ } ∧
    parse_filename ⟨'c' :: 'h' :: (['1'] ++ '/' :: '2' :: '0' :: '2' :: '5' :: '-' :: '1' ::
        '2' :: '-' :: '2' :: '6' :: '/' :: '1' :: '0' :: '3' :: '0' :: '0' :: '0' ::
        ".mp4".data)⟩ =
      some { channel := 0,
             date := ⟨['2', '0', '2', '5', '-', '1', '2', '-', '2', '6']⟩,
             time := ⟨['1', '0', ':', '3', '0', ':', '0', '0']⟩,
             datetime := ⟨['2', '6', '/', '1', '2', '/', '2', '0', '2', '5', ' ',
               '1', '0', ':', '3', '0', ':', '0', '0']⟩ } :=
  dual_convention_parse (by decide) (by decide) (by decide) (by decide) (by decide)
    (by decide) (by decide) (by decide) (by decide) (by decide) (by decide) (by decide)
    (by decide) (by decide) (by decide) (by decide) (Or.inl rfl)

/-- Claim C3, counterexample: two local segments are both inside the
15-second window (now 1000000; mtimes 999999 and 999990), but the flag
goes to the second entry of the sorted order (mtime 999990), not to the
entry with the greatest modification time (999999): the loop keeps the
last in-window index of the sorted order, which need not be the most
recently modified entry. -/
theorem live_flag_counterexample :
    ((get_recordings_for_date "recordings" 1 "2025-12-26"
      [⟨"ch1_20251226_100000.mp4", "recordings/ch1_20251226_100000.mp4", true, 100, 999999⟩,
       ⟨"ch1_20251226_103000.mp4", "recordings/ch1_20251226_103000.mp4", true, 100, 999990⟩]
      [] [] 1000000).map (fun r => r.live) = [false, true]) ∧
    ((catalogSorted "recordings" 1 "2025-12-26"
      [⟨"ch1_20251226_100000.mp4", "recordings/ch1_20251226_100000.mp4", true, 100, 999999⟩,
       ⟨"ch1_20251226_103000.mp4", "recordings/ch1_20251226_103000.mp4", true, 100, 999990⟩]
      [] []).map (fun r => r.mtime) = [999999, 999990]) ∧
    liveWindow 1000000 ((catalogSorted "recordings" 1 "2025-12-26"
      [⟨"ch1_20251226_100000.mp4", "recordings/ch1_20251226_100000.mp4", true, 100, 999999⟩,
       ⟨"ch1_20251226_103000.mp4", "recordings/ch1_20251226_103000.mp4", true, 100, 999990⟩]
      [] []).getD 0 catRecDefault) = true := by
  decide

/-- Claim C3, amended: every catalog query flags at most one entry live;
the flagged index is the last index of the sorted order whose entry lies
inside the 15-second window (every later index is outside the window —
though the flagged entry need not carry the greatest modification time),
and the flagged entry always has a local file: a cloud-only pseudo-entry
is never flagged. -/
theorem live_flag_amended (recordDir : String) (ch : Nat) (date : String)
    (rE nE : List DirEntry) (cloud : List CloudEntry) (now : Int) :
    ((get_recordings_for_date recordDir ch date rE nE cloud now).countP
      (fun r => r.live) ≤ 1) ∧
    (∀ i, liveIndexOf now (catalogSorted recordDir ch date rE nE cloud) = some i →
      liveWindow now
        ((catalogSorted recordDir ch date rE nE cloud).getD i catRecDefault) = true ∧
      (∀ j, i < j → liveWindow now
        ((catalogSorted recordDir ch date rE nE cloud).getD j catRecDefault) = false) ∧
      ((catalogSorted recordDir ch date rE nE cloud).getD i catRecDefault).fullPath.isSome
        = true) ∧
    (∀ i (h : i < (get_recordings_for_date recordDir ch date rE nE cloud now).length),
      ((get_recordings_for_date recordDir ch date rE nE cloud now).get ⟨i, h⟩).live = true →
      liveIndexOf now (catalogSorted recordDir ch date rE nE cloud) = some i) := by
  refine ⟨?_, ?_, ?_⟩
  · show (markLiveAux (liveIndexOf now (catalogSorted recordDir ch date rE nE cloud))
      (catalogSorted recordDir ch date rE nE cloud) 0).countP (fun r => r.live) ≤ 1
    exact markLiveAux_countP_le _ _ 0
  · intro i hi
    rw [liveIndexOf_eq_lastHit] at hi
    obtain ⟨hlt, hw, hafter⟩ := lastHit_spec now _ i hi
    refine ⟨hw, hafter, ?_⟩
    have hg : (catalogSorted recordDir ch date rE nE cloud).getD i catRecDefault =
        (catalogSorted recordDir ch date rE nE cloud).get ⟨i, hlt⟩ := by
      simp [List.getD_eq_getElem?_getD, List.getElem?_eq_getElem hlt]
    have hmem : (catalogSorted recordDir ch date rE nE cloud).getD i catRecDefault ∈
        catalogSorted recordDir ch date rE nE cloud := by
      rw [hg]
      exact List.get_mem _ _ hlt
    cases hfp : ((catalogSorted recordDir ch date rE nE cloud).getD i catRecDefault).fullPath
      with
    | some p => rfl
    | none =>
      exfalso
      have h0 := catalogSorted_mtime hmem hfp
      unfold liveWindow at hw
      rw [h0] at hw
      simp at hw
  · intro i h hl
    have hres := markLiveAux_live_at
      (liveIndexOf now (catalogSorted recordDir ch date rE nE cloud))
      (catalogSorted recordDir ch date rE nE cloud) 0 i h hl
    simpa using hres

/-- Witness for the amended C3 statement: at the counterexample input the
flagged entry (index 1 of the sorted order) has a local file. -/
theorem live_flag_amended_witness :
    ((catalogSorted "recordings" 1 "2025-12-26"
      [⟨"ch1_20251226_100000.mp4", "recordings/ch1_20251226_100000.mp4", true, 100, 999999⟩,
       ⟨"ch1_20251226_103000.mp4", "recordings/ch1_20251226_103000.mp4", true, 100, 999990⟩]
      [] []).getD 1 catRecDefault).fullPath.isSome = true :=
  ((live_flag_amended "recordings" 1 "2025-12-26"
    [⟨"ch1_20251226_100000.mp4", "recordings/ch1_20251226_100000.mp4", true, 100, 999999⟩,
     ⟨"ch1_20251226_103000.mp4", "recordings/ch1_20251226_103000.mp4", true, 100, 999990⟩]
    [] [] 1000000).2.1 1 (by decide)).2.2

/-- Claim C4, failing input: a local segment at 10:30 and a cloud-only
ledger row at 11:00 of the same date.  Local rows carry a
`D/M/Y h:m:s` datetime string while cloud-only rows carry a
`YYYY-MM-DD HH:MM:SS` one, and the sort compares these raw strings, so
the 11:00 cloud row sorts before the 10:30 local row: the returned list
is not in nondecreasing order of derived timestamp (all rows bear the
queried date, so derived-timestamp order is start-time order). -/
theorem catalog_sort_mixed_format_bug :
    ((get_recordings_for_date "recordings" 1 "2025-12-26"
      [⟨"ch1_20251226_103000.mp4", "recordings/ch1_20251226_103000.mp4", true, 100, 999000⟩]
      [] [⟨"11:00:00", "u"⟩] 1000000).map (fun r => r.startTime) =
      ["11:00:00", "10:30:00"]) ∧
    ((get_recordings_for_date "recordings" 1 "2025-12-26"
      [⟨"ch1_20251226_103000.mp4", "recordings/ch1_20251226_103000.mp4", true, 100, 999000⟩]
      [] [⟨"11:00:00", "u"⟩] 1000000).map (fun r => r.datetime) =
      ["2025-12-26 11:00:00", "26/12/2025 10:30:00"]) ∧
    ¬ List.Pairwise (fun a b => chLe a.startTime.data b.startTime.data = true)
      (get_recordings_for_date "recordings" 1 "2025-12-26"
        [⟨"ch1_20251226_103000.mp4", "recordings/ch1_20251226_103000.mp4", true, 100, 999000⟩]
        [] [⟨"11:00:00", "u"⟩] 1000000) := by
  decide
